import Mathlib

/-!
Verification of the task-graph orchestration core of the repository
(`src/core/workflow.py`): the `WorkflowNode` lifecycle, `WorkflowDAG`
construction with cycle rejection, readiness computation, single-node and
full-workflow execution, and status aggregation.

The Python code is embedded shallowly: the mutable state of a `WorkflowDAG`
(the node mapping and the underlying directed graph) is passed explicitly,
`datetime.now()` is a monotone tick counter threaded through execution, and
each `raise` site becomes a distinct constructor of `WorkflowError`.
The external graph library (networkx) is not part of the source tree; its
two entry points used by the code are modelled from the spec (§4.4 and §9):
Kahn's algorithm with insertion-order tie-breaking.
-/

set_option maxHeartbeats 1000000

namespace NflWorkflow

/-- Lifecycle states of a workflow node; the source tracks them as the strings
`pending`, `running`, `completed`, `failed`. -/
inductive NodeStatus where
  | pending
  | running
  | completed
  | failed
  deriving DecidableEq, Repr

/-- A Python dictionary with string keys, kept in insertion order. -/
abbrev Dict (V : Type) := List (String × V)

/-- A value returned by a task callable: either a dictionary (the only case
`execute_workflow` merges into the shared context, guarded by
`isinstance(node_result, dict)`) or some other value. -/
inductive PyVal (V : Type) where
  | dict (entries : Dict V)
  | other (v : V)
  deriving DecidableEq, Repr

/-- The input dictionary `execute_workflow` builds for each node: the key
`workflow_data` holds the shared working context and `dependency_results`
maps each dependency name to that dependency's stored result. -/
structure NodeInput (V : Type) where
  workflow_data : Dict V
  dependency_results : List (String × Option (PyVal V))

/-- `WorkflowNode` of the source: name, callable, declared dependencies, and
the mutable lifecycle fields initialised by `__init__`. -/
structure WorkflowNode (V : Type) where
  name : String
  task_func : Option (NodeInput V) → Except String (PyVal V)
  dependencies : List String
  result : Option (PyVal V) := none
  status : NodeStatus := .pending
  error : Option String := none
  start_time : Option Nat := none
  end_time : Option Nat := none

/-- `WorkflowNode.__init__`: a fresh node is `pending` with no result, error
or timestamps. -/
def WorkflowNode.init {V : Type} (name : String)
    (task_func : Option (NodeInput V) → Except String (PyVal V))
    (dependencies : List String) : WorkflowNode V :=
  { name := name, task_func := task_func, dependencies := dependencies }

/-- `WorkflowNode.execute`: unconditionally marks the node `running`, records
the start time, invokes the callable, then records the outcome.  On success it
stores the result and becomes `completed`; on failure it stores the error text
and becomes `failed`, re-raising the error.  The source performs no check of
the current status.  The `clock` argument stands for `datetime.now()` and
advances by one tick per reading. -/
def WorkflowNode.execute {V : Type} (node : WorkflowNode V) (clock : Nat)
    (input_data : Option (NodeInput V)) :
    WorkflowNode V × Nat × Except String (PyVal V) :=
  let node1 := { node with status := .running, start_time := some clock }
  match node1.task_func input_data with
  | .ok r =>
      ({ node1 with result := some r, status := .completed,
                    end_time := some (clock + 1) }, clock + 2, .ok r)
  | .error e =>
      ({ node1 with status := .failed, error := some e,
                    end_time := some (clock + 1) }, clock + 2, .error e)

/-- Modelled from the spec: the directed-graph container of the external graph
library (networkx, absent from the source tree).  Nodes and edges are kept in
insertion order with set semantics for repeated insertions; an edge `(a, b)`
means "`b` depends on `a`". -/
structure DiGraph where
  nodes : List String
  edges : List (String × String)
  deriving DecidableEq, Repr

/-- The empty directed graph (`nx.DiGraph()`). -/
def DiGraph.empty : DiGraph := ⟨[], []⟩

/-- Modelled from the spec: `DiGraph.add_node` inserts a node, ignoring
duplicates. -/
def DiGraph.add_node (g : DiGraph) (n : String) : DiGraph :=
  if n ∈ g.nodes then g else { g with nodes := g.nodes ++ [n] }

/-- Modelled from the spec: `DiGraph.add_edge` inserts a directed edge,
adding missing endpoints and ignoring duplicate edges. -/
def DiGraph.add_edge (g : DiGraph) (a b : String) : DiGraph :=
  let g1 := (g.add_node a).add_node b
  if (a, b) ∈ g1.edges then g1 else { g1 with edges := g1.edges ++ [(a, b)] }

/-- Modelled from the spec: `DiGraph.remove_node` deletes a node together with
every edge incident to it. -/
def DiGraph.remove_node (g : DiGraph) (n : String) : DiGraph :=
  { nodes := g.nodes.filter (· ≠ n),
    edges := g.edges.filter (fun e => e.1 ≠ n ∧ e.2 ≠ n) }

/-- A node is ready to be emitted by Kahn's algorithm when no not-yet-emitted
node has an edge into it. -/
def readyIn (edges : List (String × String)) (remaining : List String)
    (n : String) : Bool :=
  ! edges.any (fun e => e.2 == n && remaining.contains e.1)

/-- Modelled from the spec: one step of Kahn's algorithm per unit of fuel;
among the currently schedulable nodes the first in insertion order is emitted
(§4.4: ties broken by ascending insertion order). -/
def kahnAux (edges : List (String × String)) :
    Nat → List String → List String
  | 0, _ => []
  | fuel + 1, remaining =>
      match remaining.find? (readyIn edges remaining) with
      | none => []
      | some n => n :: kahnAux edges fuel (remaining.erase n)

/-- Modelled from the spec: `nx.topological_sort`, as Kahn's algorithm with
insertion-order tie-breaking (§4.4, §9).  On a cyclic graph the emitted order
is partial: the nodes of a cycle are never emitted. -/
def topological_sort (g : DiGraph) : List String :=
  kahnAux g.edges g.nodes.length g.nodes

/-- Modelled from the spec: `nx.is_directed_acyclic_graph`, via Kahn's
algorithm — a valid topological order covering every node exists iff the graph
has no cycle (§9). -/
def is_directed_acyclic_graph (g : DiGraph) : Bool :=
  (topological_sort g).length = g.nodes.length

/-- A non-empty directed path: `Reaches g a b` holds when a sequence of one or
more dependency edges leads from `a` to `b`. -/
inductive Reaches (g : DiGraph) : String → String → Prop where
  | single {a b : String} : (a, b) ∈ g.edges → Reaches g a b
  | cons {a b c : String} : (a, b) ∈ g.edges → Reaches g b c → Reaches g a c

/-- Every distinct `raise` site of the source, plus Python's `KeyError` from
indexing `self.nodes` with an unregistered name.  The spec's taxonomy names
them `DuplicateNodeError`, `UnknownDependencyError`, `CycleError`,
`DependencyNotSatisfiedError`; `taskFailed` wraps an exception escaping a
node's callable. -/
inductive WorkflowError where
  | duplicateNode (name : String)
  | unknownDependency (dep : String)
  | cycle
  | nodeNotFound (name : String)
  | dependencyNotCompleted (dep : String)
  | keyError (key : String)
  | invalidDAG
  | taskFailed (msg : String)
  deriving DecidableEq, Repr

/-- `WorkflowDAG`: the insertion-ordered node mapping `self.nodes` and the
library graph `self.graph`. -/
structure WorkflowDAG (V : Type) where
  graph : DiGraph
  nodes : List (String × WorkflowNode V)

/-- `WorkflowDAG.__init__`. -/
def WorkflowDAG.init {V : Type} : WorkflowDAG V := ⟨DiGraph.empty, []⟩

/-- Dictionary lookup in `self.nodes` (`self.nodes.get(name)` /
`self.nodes[name]`). -/
def lookupNode {V : Type} (nodes : List (String × WorkflowNode V))
    (n : String) : Option (WorkflowNode V) :=
  (nodes.find? (fun p => p.1 == n)).map (·.2)

/-- Dictionary assignment of an existing key: Python keeps the key at its
original position and replaces the value. -/
def updateNode {V : Type} (nodes : List (String × WorkflowNode V))
    (n : String) (v : WorkflowNode V) : List (String × WorkflowNode V) :=
  nodes.map (fun p => if p.1 == n then (n, v) else p)

/-- The dependency loop of `add_node` (source lines 56–60): for each declared
dependency in order, raise `Dependency {dep} not found` if it is not a
registered node, otherwise add the edge `dep → name`.  The raise happens
mid-loop, with the new node and the edges of earlier dependencies already
inserted. -/
def addDeps {V : Type} (g : WorkflowDAG V) (name : String) :
    List String → WorkflowDAG V × Except WorkflowError Unit
  | [] => (g, .ok ())
  | dep :: rest =>
      if g.nodes.any (fun p => p.1 == dep) then
        addDeps { g with graph := g.graph.add_edge dep name } name rest
      else
        (g, .error (.unknownDependency dep))

/-- `WorkflowDAG.add_node`: reject duplicates; register the node in
`self.nodes` and `self.graph`; add one edge per declared dependency, raising
on the first unknown one; finally verify acyclicity and, only on that check's
failure, roll the insertion back and raise the cycle error. -/
def WorkflowDAG.add_node {V : Type} (g : WorkflowDAG V) (name : String)
    (task_func : Option (NodeInput V) → Except String (PyVal V))
    (dependencies : List String) :
    WorkflowDAG V × Except WorkflowError Unit :=
  if g.nodes.any (fun p => p.1 == name) then
    (g, .error (.duplicateNode name))
  else
    let node := WorkflowNode.init name task_func dependencies
    let g1 : WorkflowDAG V :=
      { graph := g.graph.add_node name, nodes := g.nodes ++ [(name, node)] }
    match addDeps g1 name dependencies with
    | (g2, .error e) => (g2, .error e)
    | (g2, .ok _) =>
        if is_directed_acyclic_graph g2.graph then (g2, .ok ())
        else
          ({ graph := g2.graph.remove_node name,
             nodes := g2.nodes.filter (fun p => p.1 ≠ name) },
           .error .cycle)

/-- The dependency scan inside `get_ready_nodes`: Python's
`all(self.nodes[dep].status == 'completed' for dep in node.dependencies)`.
The generator is lazy: a dependency with a status other than `completed`
short-circuits to `False`; an unregistered dependency reached before any such
raises `KeyError`. -/
def depsCompleted {V : Type} (nodes : List (String × WorkflowNode V)) :
    List String → Except WorkflowError Bool
  | [] => .ok true
  | d :: rest =>
      match lookupNode nodes d with
      | none => .error (.keyError d)
      | some dn =>
          if dn.status = .completed then depsCompleted nodes rest
          else .ok false

/-- The filtering loop of `get_ready_nodes` over `self.nodes` in insertion
order. -/
def readyFilter {V : Type} (nodes : List (String × WorkflowNode V)) :
    List (String × WorkflowNode V) → Except WorkflowError (List String)
  | [] => .ok []
  | (n, nd) :: rest =>
      if nd.status = .pending then
        match depsCompleted nodes nd.dependencies with
        | .error e => .error e
        | .ok true => (readyFilter nodes rest).map (n :: ·)
        | .ok false => readyFilter nodes rest
      else
        readyFilter nodes rest

/-- `WorkflowDAG.get_ready_nodes`: every `pending` node whose dependencies are
all `completed`, in insertion order. -/
def WorkflowDAG.get_ready_nodes {V : Type} (g : WorkflowDAG V) :
    Except WorkflowError (List String) :=
  readyFilter g.nodes g.nodes

/-- The dependency check of `execute_node` (source lines 109–112): for each
dependency in order, `KeyError` if unregistered, `Dependency {dep} not
completed` if its status is not `completed`. -/
def checkDeps {V : Type} (nodes : List (String × WorkflowNode V)) :
    List String → Except WorkflowError Unit
  | [] => .ok ()
  | d :: rest =>
      match lookupNode nodes d with
      | none => .error (.keyError d)
      | some dn =>
          if dn.status = .completed then checkDeps nodes rest
          else .error (.dependencyNotCompleted d)

/-- `WorkflowDAG.execute_node`: look the node up, verify every dependency is
`completed`, then delegate to the node's `execute` and store the mutated
node back. -/
def WorkflowDAG.execute_node {V : Type} (g : WorkflowDAG V) (clock : Nat)
    (name : String) (input_data : Option (NodeInput V)) :
    WorkflowDAG V × Nat × Except WorkflowError (PyVal V) :=
  match lookupNode g.nodes name with
  | none => (g, clock, .error (.nodeNotFound name))
  | some node =>
      match checkDeps g.nodes node.dependencies with
      | .error e => (g, clock, .error e)
      | .ok _ =>
          match node.execute clock input_data with
          | (node1, clock1, .ok r) =>
              ({ g with nodes := updateNode g.nodes name node1 }, clock1, .ok r)
          | (node1, clock1, .error e) =>
              ({ g with nodes := updateNode g.nodes name node1 }, clock1,
               .error (.taskFailed e))

/-- The `dependency_results` comprehension of `execute_workflow` (source lines
136–139): `{dep: self.nodes[dep].result for dep in node.dependencies}`;
an unregistered dependency raises `KeyError`. -/
def collectDepResults {V : Type} (nodes : List (String × WorkflowNode V)) :
    List String → Except WorkflowError (List (String × Option (PyVal V)))
  | [] => .ok []
  | d :: rest =>
      match lookupNode nodes d with
      | none => .error (.keyError d)
      | some dn => (collectDepResults nodes rest).map ((d, dn.result) :: ·)

/-- Assignment of one key in a Python dictionary: replace the value in place
when the key exists, append otherwise. -/
def dictSet {V : Type} (d : Dict V) (k : String) (v : V) : Dict V :=
  if d.any (fun p => p.1 == k) then
    d.map (fun p => if p.1 == k then (k, v) else p)
  else d ++ [(k, v)]

/-- Python's `current_data.update(node_result)`: fold the payload's entries
into the context in order, each overwriting any earlier value for its key. -/
def dictUpdate {V : Type} (d upd : Dict V) : Dict V :=
  upd.foldl (fun acc p => dictSet acc p.1 p.2) d

/-- First-occurrence association lookup, Python's `d[k]` as an `Option`. -/
def lookupD {V : Type} (d : Dict V) (k : String) : Option V :=
  (d.find? (fun p => p.1 == k)).map (·.2)

/-- The walk of `execute_workflow` over the computed order (source lines
130–150): look each node up, build its input from the shared context and its
dependencies' stored results, run it through `execute_node`, record its result,
and merge dictionary results into the shared context.  The first failure
propagates immediately, abandoning the rest of the order. -/
def runOrder {V : Type} :
    List String → WorkflowDAG V → Nat → List (String × PyVal V) → Dict V →
    WorkflowDAG V × Nat × Except WorkflowError (List (String × PyVal V))
  | [], g, clock, results, _ => (g, clock, .ok results)
  | node_name :: rest, g, clock, results, current_data =>
      match lookupNode g.nodes node_name with
      | none => (g, clock, .error (.keyError node_name))
      | some node =>
          match collectDepResults g.nodes node.dependencies with
          | .error e => (g, clock, .error e)
          | .ok dep_results =>
              let node_input : NodeInput V := ⟨current_data, dep_results⟩
              match g.execute_node clock node_name (some node_input) with
              | (g1, clock1, .error e) => (g1, clock1, .error e)
              | (g1, clock1, .ok r) =>
                  runOrder rest g1 clock1 (results ++ [(node_name, r)])
                    (match r with
                     | .dict d => dictUpdate current_data d
                     | .other _ => current_data)

/-- `WorkflowDAG.execute_workflow`: re-verify acyclicity, compute the
topological order, and walk it. -/
def WorkflowDAG.execute_workflow {V : Type} (g : WorkflowDAG V) (clock : Nat)
    (initial_data : Option (Dict V)) :
    WorkflowDAG V × Nat × Except WorkflowError (List (String × PyVal V)) :=
  if is_directed_acyclic_graph g.graph then
    runOrder (topological_sort g.graph) g clock [] (initial_data.getD [])
  else
    (g, clock, .error .invalidDAG)

/-- The record returned by `get_workflow_status`. -/
structure WorkflowStatus where
  total_nodes : Nat
  completed : Nat
  failed : Nat
  pending : Nat
  running : Nat
  start_time : Option Nat
  end_time : Option Nat
  status : NodeStatus
  deriving DecidableEq, Repr

/-- `WorkflowDAG.get_workflow_status`: per-state counts, earliest start and
latest end across all timestamped nodes, and the summary verdict computed by
the source's conditional chain: `completed` if every node is completed, else
`failed` if any failed, else `running` if any running, else `pending`. -/
def WorkflowDAG.get_workflow_status {V : Type} (g : WorkflowDAG V) :
    WorkflowStatus :=
  let total_nodes := g.nodes.length
  let completed := g.nodes.countP (fun p => p.2.status == .completed)
  let failed := g.nodes.countP (fun p => p.2.status == .failed)
  let pending := g.nodes.countP (fun p => p.2.status == .pending)
  let running := g.nodes.countP (fun p => p.2.status == .running)
  let start_times := g.nodes.filterMap (fun p => p.2.start_time)
  let end_times := g.nodes.filterMap (fun p => p.2.end_time)
  { total_nodes := total_nodes, completed := completed, failed := failed,
    pending := pending, running := running,
    start_time := start_times.min?, end_time := end_times.max?,
    status :=
      if completed = total_nodes then .completed
      else if failed > 0 then .failed
      else if running > 0 then .running
      else .pending }

deriving instance DecidableEq for Except

/-! ### Concrete fixtures -/

/-- A task returning an empty dictionary. -/
def exTaskEmpty : Option (NodeInput Nat) → Except String (PyVal Nat) :=
  fun _ => .ok (.dict [])

/-- A task returning the payload `{a: 1}`. -/
def exTaskA : Option (NodeInput Nat) → Except String (PyVal Nat) :=
  fun _ => .ok (.dict [("a", 1)])

/-- A task that always fails with the message `boom`. -/
def exTaskBoom : Option (NodeInput Nat) → Except String (PyVal Nat) :=
  fun _ => .error "boom"

/-- A task returning a non-dictionary value. -/
def exTaskSeven : Option (NodeInput Nat) → Except String (PyVal Nat) :=
  fun _ => .ok (.other 7)

/-- `add_node("E", deps=["E", "X"])` on an empty workflow: the unknown
dependency `X` raises after node `E` and the self-loop edge `E → E` were
inserted. -/
def exSelfLoop : WorkflowDAG Nat × Except WorkflowError Unit :=
  (WorkflowDAG.init (V := Nat)).add_node "E" exTaskEmpty ["E", "X"]

/-- The diamond workflow of spec §8, scenario 1: `A`; `B`, `C` depending on
`A`; `D` depending on `B` and `C`. -/
def exDiamond : WorkflowDAG Nat :=
  (((((WorkflowDAG.init (V := Nat)).add_node "A" exTaskA []).1.add_node
      "B" exTaskEmpty ["A"]).1.add_node
      "C" exTaskEmpty ["A"]).1.add_node
      "D" exTaskEmpty ["B", "C"]).1

/-- A two-node chain `A → B` whose second task fails. -/
def exChainFail : WorkflowDAG Nat :=
  (((WorkflowDAG.init (V := Nat)).add_node "A" exTaskA []).1.add_node
    "B" exTaskBoom ["A"]).1

/-- A node already `completed`, with a stored result and timestamps. -/
def exDoneNode : WorkflowNode Nat :=
  { name := "A", task_func := exTaskSeven, dependencies := [],
    result := some (.dict [("a", 1)]), status := .completed, error := none,
    start_time := some 0, end_time := some 1 }

/-- A pending node depending on `A`. -/
def exPendingB : WorkflowNode Nat :=
  { name := "B", task_func := exTaskEmpty, dependencies := ["A"] }

/-- A pending node depending on `B`. -/
def exPendingC : WorkflowNode Nat :=
  { name := "C", task_func := exTaskEmpty, dependencies := ["B"] }

/-- A workflow caught mid-run: `A` completed, `B` and `C` still pending. -/
def exMixed : WorkflowDAG Nat :=
  { graph := ⟨["A", "B", "C"], [("A", "B"), ("B", "C")]⟩,
    nodes := [("A", exDoneNode), ("B", exPendingB), ("C", exPendingC)] }

/-! ### Properties of the modelled Kahn sort -/

/-- A node found ready has no incoming edge from a remaining node. -/
theorem readyIn_no_in_edge {edges : List (String × String)}
    {remaining : List String} {n a : String}
    (h : readyIn edges remaining n = true)
    (he : (a, n) ∈ edges) (ha : a ∈ remaining) : False := by
  unfold readyIn at h
  simp only [Bool.not_eq_eq_eq_not, Bool.not_true, List.any_eq_false] at h
  have := h (a, n) he
  simp [ha] at this

/-- Every node emitted by `kahnAux` comes from the remaining list. -/
theorem kahnAux_subset (edges : List (String × String)) :
    ∀ (fuel : Nat) (remaining : List String) (x : String),
      x ∈ kahnAux edges fuel remaining → x ∈ remaining := by
  intro fuel
  induction fuel with
  | zero => intro remaining x hx; simp [kahnAux] at hx
  | succ f ih =>
    intro remaining x hx
    unfold kahnAux at hx
    cases hfind : remaining.find? (readyIn edges remaining) with
    | none => rw [hfind] at hx; simp at hx
    | some n =>
      rw [hfind] at hx
      simp only [List.mem_cons] at hx
      rcases hx with rfl | hx
      · exact List.mem_of_find?_eq_some hfind
      · exact List.erase_subset _ _ (ih _ x hx)

/-- `kahnAux` emits no node twice when the remaining list has no duplicate. -/
theorem kahnAux_nodup (edges : List (String × String)) :
    ∀ (fuel : Nat) (remaining : List String), remaining.Nodup →
      (kahnAux edges fuel remaining).Nodup := by
  intro fuel
  induction fuel with
  | zero => intro remaining _; simp [kahnAux]
  | succ f ih =>
    intro remaining hnd
    unfold kahnAux
    cases hfind : remaining.find? (readyIn edges remaining) with
    | none => simp
    | some n =>
      refine List.nodup_cons.mpr ⟨?_, ih _ (hnd.erase n)⟩
      intro hmem
      have := kahnAux_subset edges f (remaining.erase n) n hmem
      exact ((hnd.mem_erase_iff.mp this).1 rfl).elim

/-- `kahnAux` emits at most as many nodes as remain. -/
theorem kahnAux_length_le (edges : List (String × String)) :
    ∀ (fuel : Nat) (remaining : List String),
      (kahnAux edges fuel remaining).length ≤ remaining.length := by
  intro fuel
  induction fuel with
  | zero => intro remaining; simp [kahnAux]
  | succ f ih =>
    intro remaining
    unfold kahnAux
    cases hfind : remaining.find? (readyIn edges remaining) with
    | none => simp
    | some n =>
      have hmem := List.mem_of_find?_eq_some hfind
      have hlen := List.length_erase_add_one hmem
      simpa [← hlen] using Nat.succ_le_succ (ih (remaining.erase n))

/-- When `kahnAux` covers the whole (duplicate-free) remaining list, every
remaining node is emitted. -/
theorem kahnAux_covers {edges : List (String × String)}
    {fuel : Nat} {remaining : List String} (hnd : remaining.Nodup)
    (hlen : (kahnAux edges fuel remaining).length = remaining.length) :
    ∀ x ∈ remaining, x ∈ kahnAux edges fuel remaining := by
  have hsub : kahnAux edges fuel remaining ⊆ remaining :=
    fun x hx => kahnAux_subset edges fuel remaining x hx
  have hperm :=
    (List.subperm_of_subset (kahnAux_nodup edges fuel remaining hnd) hsub
      ).perm_of_length_le (le_of_eq hlen.symm)
  exact fun x hx => hperm.mem_iff.mpr hx

/-- Core ordering property of the modelled sort: whenever the emitted order
decomposes as `pre ++ b :: post`, no in-neighbour of `b` lies in `b :: post`;
every dependency of `b` that is emitted at all is emitted strictly before
`b`. -/
theorem kahnAux_no_in_suffix (edges : List (String × String)) :
    ∀ (fuel : Nat) (remaining pre post : List String) (a b : String),
      kahnAux edges fuel remaining = pre ++ b :: post →
      (a, b) ∈ edges → a ∈ b :: post → False := by
  intro fuel
  induction fuel with
  | zero =>
    intro remaining pre post a b heq _ _
    simp [kahnAux] at heq
  | succ f ih =>
    intro remaining pre post a b heq hedge hmem
    unfold kahnAux at heq
    cases hfind : remaining.find? (readyIn edges remaining) with
    | none =>
      rw [hfind] at heq
      simp at heq
    | some n =>
      rw [hfind] at heq
      have hready := List.find?_some hfind
      have hnmem := List.mem_of_find?_eq_some hfind
      cases pre with
      | nil =>
        simp only [List.nil_append, List.cons.injEq] at heq
        obtain ⟨rfl, hrest⟩ := heq
        rcases List.mem_cons.mp hmem with rfl | hpost
        · exact readyIn_no_in_edge hready hedge hnmem
        · have : a ∈ remaining.erase n :=
            kahnAux_subset edges f _ a (hrest ▸ hpost)
          exact readyIn_no_in_edge hready hedge (List.erase_subset _ _ this)
      | cons p pre2 =>
        simp only [List.cons_append, List.cons.injEq] at heq
        exact ih (remaining.erase n) pre2 post a b heq.2 hedge hmem

/-- Successor form of the ordering property: an out-neighbour of `a` that is
emitted at all is emitted strictly after `a`. -/
theorem kahnAux_succ_in_suffix (edges : List (String × String))
    {fuel : Nat} {remaining pre post : List String} {a c : String}
    (heq : kahnAux edges fuel remaining = pre ++ a :: post)
    (hedge : (a, c) ∈ edges)
    (hc : c ∈ kahnAux edges fuel remaining) : c ∈ post := by
  rw [heq] at hc
  rcases List.mem_append.mp hc with hcpre | hctail
  · obtain ⟨pre1, pre2, rfl⟩ := List.append_of_mem hcpre
    have : kahnAux edges fuel remaining =
        pre1 ++ c :: (pre2 ++ a :: post) := by
      rw [heq]; simp
    exact (kahnAux_no_in_suffix edges fuel remaining pre1 (pre2 ++ a :: post)
      a c this hedge (by simp)).elim
  · rcases List.mem_cons.mp hctail with rfl | hcpost
    · exact (kahnAux_no_in_suffix edges fuel remaining pre post c c heq hedge
        (List.mem_cons_self c post)).elim
    · exact hcpost

/-- Reachability form of the ordering property: every node reachable from `a`
along dependency edges is emitted strictly after `a`, provided the emitted
order covers the edge endpoints. -/
theorem kahnAux_reaches_in_suffix {g : DiGraph}
    {fuel : Nat} {remaining : List String}
    (hcov : ∀ e, e ∈ g.edges → e.2 ∈ kahnAux g.edges fuel remaining) :
    ∀ {a b : String}, Reaches g a b →
    ∀ pre post, kahnAux g.edges fuel remaining = pre ++ a :: post → b ∈ post := by
  intro a b hr
  induction hr with
  | single hedge =>
    intro pre post heq
    exact kahnAux_succ_in_suffix g.edges heq hedge (hcov _ hedge)
  | cons hedge _ ih =>
    intro pre post heq
    rename_i x y z _
    have hy : y ∈ post := kahnAux_succ_in_suffix g.edges heq hedge (hcov _ hedge)
    obtain ⟨p1, p2, rfl⟩ := List.append_of_mem hy
    have heq2 : kahnAux g.edges fuel remaining = (pre ++ x :: p1) ++ y :: p2 := by
      rw [heq]; simp
    have := ih (pre ++ x :: p1) p2 heq2
    exact List.mem_append_right p1 (List.mem_cons_of_mem y this)

/-- With no edges at all, the modelled sort returns the nodes in insertion
order. -/
theorem kahnAux_no_edges :
    ∀ (remaining : List String), kahnAux [] remaining.length remaining = remaining := by
  intro remaining
  induction remaining with
  | nil => simp [kahnAux]
  | cons a l ih =>
    show kahnAux [] (l.length + 1) (a :: l) = a :: l
    unfold kahnAux
    have hready : readyIn [] (a :: l) a = true := by simp [readyIn]
    rw [List.find?_cons_of_pos _ hready]
    simp only [List.erase_cons_head]
    exact congrArg (a :: ·) ih

/-- A self-loop keeps its node out of the emitted order. -/
theorem kahnAux_selfloop_not_mem {edges : List (String × String)} {n : String}
    (hloop : (n, n) ∈ edges) :
    ∀ (fuel : Nat) (remaining : List String), n ∈ remaining →
      n ∉ kahnAux edges fuel remaining := by
  intro fuel
  induction fuel with
  | zero => intro remaining _; simp [kahnAux]
  | succ f ih =>
    intro remaining hn hmem
    unfold kahnAux at hmem
    cases hfind : remaining.find? (readyIn edges remaining) with
    | none => rw [hfind] at hmem; simp at hmem
    | some m =>
      rw [hfind] at hmem
      have hready := List.find?_some hfind
      rcases List.mem_cons.mp hmem with rfl | htail
      · exact readyIn_no_in_edge hready hloop hn
      · have hne : n ≠ m := by
          rintro rfl
          exact readyIn_no_in_edge hready hloop hn
        exact ih (remaining.erase m) ((List.mem_erase_of_ne hne).mpr hn) htail

/-- A graph containing a self-loop fails the modelled acyclicity check. -/
theorem selfloop_not_dag {g : DiGraph} {n : String}
    (hnd : g.nodes.Nodup) (hloop : (n, n) ∈ g.edges) (hn : n ∈ g.nodes) :
    is_directed_acyclic_graph g = false := by
  unfold is_directed_acyclic_graph topological_sort
  by_contra h
  simp only [Bool.not_eq_false, decide_eq_true_eq] at h
  exact kahnAux_selfloop_not_mem hloop g.nodes.length g.nodes hn
    (kahnAux_covers hnd h n hn)

/-! ### Node-mapping lemmas -/

/-- A successful lookup returns an entry of the mapping, keyed by the looked-up
name. -/
theorem lookupNode_mem {V : Type} {nodes : List (String × WorkflowNode V)}
    {n : String} {v : WorkflowNode V} (h : lookupNode nodes n = some v) :
    (n, v) ∈ nodes := by
  unfold lookupNode at h
  cases hfind : nodes.find? (fun p => p.1 == n) with
  | none => rw [hfind] at h; simp at h
  | some p =>
    rw [hfind] at h
    have hp := List.find?_some hfind
    have hmem := List.mem_of_find?_eq_some hfind
    simp at h hp
    subst h
    rwa [← hp, Prod.mk.eta]

/-- With duplicate-free keys, membership of an entry determines the lookup. -/
theorem lookupNode_of_mem {V : Type} {nodes : List (String × WorkflowNode V)}
    {n : String} {v : WorkflowNode V}
    (hnd : (nodes.map Prod.fst).Nodup) (hmem : (n, v) ∈ nodes) :
    lookupNode nodes n = some v := by
  induction nodes with
  | nil => simp at hmem
  | cons p rest ih =>
    simp only [List.map_cons, List.nodup_cons] at hnd
    rcases List.mem_cons.mp hmem with rfl | htail
    · simp [lookupNode]
    · have hne : p.1 ≠ n := by
        intro heq
        exact hnd.1 (heq ▸ (List.mem_map.mpr ⟨(n, v), htail, rfl⟩))
      unfold lookupNode
      rw [List.find?_cons_of_neg _ (by simpa using hne)]
      exact ih hnd.2 htail

/-- Updating one key leaves every other key's lookup unchanged. -/
theorem lookupNode_update_ne {V : Type} (nodes : List (String × WorkflowNode V))
    (n m : String) (v : WorkflowNode V) (hne : m ≠ n) :
    lookupNode (updateNode nodes n v) m = lookupNode nodes m := by
  induction nodes with
  | nil => rfl
  | cons p rest ih =>
    simp only [updateNode, List.map_cons]
    by_cases hp : p.1 = n
    · rw [if_pos (by simpa using hp)]
      unfold lookupNode
      rw [List.find?_cons_of_neg _
            (by simpa using fun h : n = m => hne h.symm),
          List.find?_cons_of_neg _
            (by simpa using fun h : p.1 = m => hne (h.symm.trans hp))]
      exact ih
    · rw [if_neg (by simpa using hp)]
      by_cases hm : p.1 = m
      · unfold lookupNode
        rw [List.find?_cons_of_pos _ (by simpa using hm),
            List.find?_cons_of_pos _ (by simpa using hm)]
      · unfold lookupNode
        rw [List.find?_cons_of_neg _ (by simpa using hm),
            List.find?_cons_of_neg _ (by simpa using hm)]
        exact ih

/-- Updating a present key makes its lookup return the new value. -/
theorem lookupNode_update_self {V : Type} (nodes : List (String × WorkflowNode V))
    (n : String) (v w : WorkflowNode V) (h : lookupNode nodes n = some w) :
    lookupNode (updateNode nodes n v) n = some v := by
  induction nodes with
  | nil => simp [lookupNode] at h
  | cons p rest ih =>
    simp only [updateNode, List.map_cons]
    by_cases hp : p.1 = n
    · rw [if_pos (by simpa using hp)]
      unfold lookupNode
      rw [List.find?_cons_of_pos _ (by simp)]
      rfl
    · rw [if_neg (by simpa using hp)]
      unfold lookupNode
      rw [List.find?_cons_of_neg _ (by simpa using hp)]
      unfold lookupNode at h
      rw [List.find?_cons_of_neg _ (by simpa using hp)] at h
      exact ih h

/-! ### Graph-construction lemmas -/

/-- Adding a fresh node appends it. -/
theorem DiGraph.add_node_of_not_mem {g : DiGraph} {n : String}
    (h : n ∉ g.nodes) :
    g.add_node n = { g with nodes := g.nodes ++ [n] } := by
  simp [DiGraph.add_node, h]

/-- Node insertion never changes the edge set. -/
theorem DiGraph.add_node_edges (g : DiGraph) (n : String) :
    (g.add_node n).edges = g.edges := by
  unfold DiGraph.add_node
  split <;> rfl

/-- The inserted edge is present afterwards. -/
theorem DiGraph.mem_add_edge_self (g : DiGraph) (a b : String) :
    (a, b) ∈ (g.add_edge a b).edges := by
  by_cases h : (a, b) ∈ ((g.add_node a).add_node b).edges
  · simp [DiGraph.add_edge, h]
  · simp [DiGraph.add_edge, h]

/-- Edge insertion preserves existing edges. -/
theorem DiGraph.add_edge_edges_mono (g : DiGraph) (a b : String)
    {e : String × String} (he : e ∈ g.edges) : e ∈ (g.add_edge a b).edges := by
  have hne : ((g.add_node a).add_node b).edges = g.edges := by
    rw [DiGraph.add_node_edges, DiGraph.add_node_edges]
  by_cases h : (a, b) ∈ g.edges
  · simp only [DiGraph.add_edge, hne, if_pos h]
    exact hne ▸ he
  · simp only [DiGraph.add_edge, hne, if_neg h, List.mem_append]
    exact Or.inl he

/-- Inserting an edge between present endpoints keeps the node list and
appends at most that one edge. -/
theorem DiGraph.add_edge_spec {g : DiGraph} {a b : String}
    (ha : a ∈ g.nodes) (hb : b ∈ g.nodes) :
    (g.add_edge a b).nodes = g.nodes ∧
    (a, b) ∈ (g.add_edge a b).edges ∧
    ∃ new, (g.add_edge a b).edges = g.edges ++ new ∧
      ∀ e ∈ new, e = (a, b) := by
  unfold DiGraph.add_edge
  have h1 : g.add_node a = g := by simp [DiGraph.add_node, ha]
  have h2 : g.add_node b = g := by simp [DiGraph.add_node, hb]
  rw [h1, h2]
  by_cases hmem : (a, b) ∈ g.edges
  · refine ⟨by simp [hmem], by simp [hmem], [], by simp [hmem], by simp⟩
  · exact ⟨by simp [hmem], by simp [hmem], [(a, b)], by simp [hmem], by simp⟩

/-- The dependency loop never touches the node mapping. -/
theorem addDeps_nodes {V : Type} :
    ∀ (deps : List String) (g : WorkflowDAG V) (name : String),
      (addDeps g name deps).1.nodes = g.nodes := by
  intro deps
  induction deps with
  | nil => intro g name; rfl
  | cons d rest ih =>
    intro g name
    unfold addDeps
    by_cases hd : g.nodes.any (fun p => p.1 == d)
    · rw [if_pos hd]; exact ih _ name
    · rw [if_neg hd]

/-- Every error the dependency loop can raise is an unknown-dependency
error. -/
theorem addDeps_error_unknown {V : Type} :
    ∀ (deps : List String) (g g2 : WorkflowDAG V) (name : String)
      (e : WorkflowError),
      addDeps g name deps = (g2, .error e) →
      ∃ d, e = .unknownDependency d := by
  intro deps
  induction deps with
  | nil => intro g g2 name e h; simp [addDeps] at h
  | cons d rest ih =>
    intro g g2 name e h
    unfold addDeps at h
    by_cases hd : g.nodes.any (fun p => p.1 == d)
    · rw [if_pos hd] at h; exact ih _ g2 name e h
    · rw [if_neg hd] at h
      simp only [Prod.mk.injEq] at h
      exact ⟨d, by simpa using h.2.symm⟩

/-- When every endpoint it needs is already a graph node, the dependency loop
keeps the graph's node list, keeps the key set of the mapping, and appends only
edges pointing into `name`. -/
theorem addDeps_spec {V : Type} :
    ∀ (deps : List String) (g : WorkflowDAG V) (name : String),
      (∀ k, (∃ p ∈ g.nodes, p.1 = k) → k ∈ g.graph.nodes) →
      name ∈ g.graph.nodes →
      (addDeps g name deps).1.graph.nodes = g.graph.nodes ∧
      ∃ new, (addDeps g name deps).1.graph.edges = g.graph.edges ++ new ∧
        ∀ e ∈ new, e.2 = name := by
  intro deps
  induction deps with
  | nil => intro g name _ _; exact ⟨rfl, [], by simp [addDeps], by simp⟩
  | cons d rest ih =>
    intro g name hkeys hname
    unfold addDeps
    by_cases hd : g.nodes.any (fun p => p.1 == d)
    · rw [if_pos hd]
      have hdmem : d ∈ g.graph.nodes := by
        refine hkeys d ?_
        obtain ⟨p, hp, hpd⟩ := List.any_eq_true.mp hd
        exact ⟨p, hp, by simpa using hpd⟩
      obtain ⟨hn, hmeme, new1, hedges, hnew1⟩ := DiGraph.add_edge_spec hdmem hname
      set g1 : WorkflowDAG V := { g with graph := g.graph.add_edge d name }
      have hrec := ih g1 name
        (by
          intro k hk
          have : k ∈ g.graph.nodes := hkeys k hk
          simpa [g1, hn] using this)
        (by simpa [g1, hn] using hname)
      obtain ⟨hrn, new2, hre, hnew2⟩ := hrec
      refine ⟨by simpa [g1, hn] using hrn, new1 ++ new2, ?_, ?_⟩
      · rw [hre]
        show g1.graph.edges ++ new2 = g.graph.edges ++ (new1 ++ new2)
        simp [g1, hedges]
      · intro e he
        rcases List.mem_append.mp he with h1 | h2
        · rw [hnew1 e h1]
        · exact hnew2 e h2
    · rw [if_neg hd]
      exact ⟨rfl, [], by simp, by simp⟩

/-- Edges only accumulate along the dependency loop. -/
theorem addDeps_edges_mono {V : Type} :
    ∀ (deps : List String) (g : WorkflowDAG V) (name : String)
      (e : String × String), e ∈ g.graph.edges →
      e ∈ (addDeps g name deps).1.graph.edges := by
  intro deps
  induction deps with
  | nil => intro g name e he; exact he
  | cons d rest ih =>
    intro g name e he
    unfold addDeps
    by_cases hd : g.nodes.any (fun p => p.1 == d)
    · rw [if_pos hd]
      exact ih _ name e (DiGraph.add_edge_edges_mono g.graph d name he)
    · rw [if_neg hd]; exact he

/-- When every declared dependency is a key of the mapping, the dependency
loop succeeds and records one edge per dependency. -/
theorem addDeps_all_known {V : Type} :
    ∀ (deps : List String) (g : WorkflowDAG V) (name : String),
      (∀ d ∈ deps, ∃ p ∈ g.nodes, p.1 = d) →
      (addDeps g name deps).2 = .ok () ∧
      ∀ d ∈ deps, (d, name) ∈ (addDeps g name deps).1.graph.edges := by
  intro deps
  induction deps with
  | nil => intro g name _; simp [addDeps]
  | cons d rest ih =>
    intro g name hknown
    have hd : g.nodes.any (fun p => p.1 == d) = true := by
      obtain ⟨p, hp, hpd⟩ := hknown d (List.mem_cons_self d rest)
      exact List.any_eq_true.mpr ⟨p, hp, by simpa using hpd⟩
    unfold addDeps
    rw [if_pos hd]
    set g1 : WorkflowDAG V := { g with graph := g.graph.add_edge d name }
    have hrec := ih g1 name (by
      intro d2 hd2
      obtain ⟨p, hp, hpd⟩ := hknown d2 (List.mem_cons_of_mem d hd2)
      exact ⟨p, hp, hpd⟩)
    refine ⟨hrec.1, ?_⟩
    intro d2 hd2
    rcases List.mem_cons.mp hd2 with rfl | htail
    · have hmem : (d2, name) ∈ g1.graph.edges :=
        DiGraph.mem_add_edge_self g.graph d2 name
      exact addDeps_edges_mono rest g1 name _ hmem
    · exact hrec.2 d2 htail

/-- The explicit rollback of `add_node` restores the pre-call state exactly,
given the class invariants that the graph's node list mirrors the mapping's
keys and that every recorded edge endpoint is a registered node. -/
theorem rollback_restores {V : Type} (g : WorkflowDAG V) (name : String)
    (node : WorkflowNode V) (g3 : WorkflowDAG V)
    (hsync : g.graph.nodes = g.nodes.map Prod.fst)
    (hends : ∀ ed ∈ g.graph.edges, ed.1 ∈ g.graph.nodes ∧ ed.2 ∈ g.graph.nodes)
    (hfresh : name ∉ g.nodes.map Prod.fst)
    (hnodes : g3.nodes = g.nodes ++ [(name, node)])
    (hgnodes : g3.graph.nodes = g.graph.nodes ++ [name])
    (hedges : ∃ new, g3.graph.edges = g.graph.edges ++ new ∧
      ∀ e ∈ new, e.2 = name) :
    ({ graph := g3.graph.remove_node name,
       nodes := g3.nodes.filter (fun p => p.1 ≠ name) } : WorkflowDAG V) = g := by
  obtain ⟨new, hed, hnew⟩ := hedges
  have hgname : name ∉ g.graph.nodes := by rw [hsync]; exact hfresh
  have h1 : (g3.graph.remove_node name).nodes = g.graph.nodes := by
    unfold DiGraph.remove_node
    rw [hgnodes, List.filter_append]
    have ha : g.graph.nodes.filter (· ≠ name) = g.graph.nodes :=
      List.filter_eq_self.mpr (fun a ha => by
        have hne : a ≠ name := fun h => hgname (h ▸ ha)
        simp [hne])
    have hb : [name].filter (· ≠ name) = [] := by simp
    rw [ha, hb, List.append_nil]
  have h2 : (g3.graph.remove_node name).edges = g.graph.edges := by
    unfold DiGraph.remove_node
    rw [hed, List.filter_append]
    have ha : g.graph.edges.filter (fun e => e.1 ≠ name ∧ e.2 ≠ name) =
        g.graph.edges :=
      List.filter_eq_self.mpr (fun e he => by
        have hmm := hends e he
        have h1e : e.1 ≠ name := fun h => hgname (h ▸ hmm.1)
        have h2e : e.2 ≠ name := fun h => hgname (h ▸ hmm.2)
        simp [h1e, h2e])
    have hb : new.filter (fun e => e.1 ≠ name ∧ e.2 ≠ name) = [] :=
      List.filter_eq_nil_iff.mpr (fun e he => by
        have h2e : e.2 = name := hnew e he
        simp [h2e])
    rw [ha, hb, List.append_nil]
  have h3 : g3.nodes.filter (fun p => p.1 ≠ name) = g.nodes := by
    rw [hnodes, List.filter_append]
    have ha : g.nodes.filter (fun p => p.1 ≠ name) = g.nodes :=
      List.filter_eq_self.mpr (fun p hp => by
        have hne : p.1 ≠ name := fun h =>
          hfresh (h ▸ List.mem_map.mpr ⟨p, hp, rfl⟩)
        simp [hne])
    have hb : [(name, node)].filter (fun p => p.1 ≠ name) = [] := by simp
    rw [ha, hb, List.append_nil]
  have hgraph : g3.graph.remove_node name = g.graph := by
    have heta : g3.graph.remove_node name =
        ⟨(g3.graph.remove_node name).nodes, (g3.graph.remove_node name).edges⟩ :=
      rfl
    rw [heta, h1, h2]
  rw [hgraph, h3]

/-! ### Readiness and dependency-check lemmas -/

/-- The lazy dependency scan can only fail with a `KeyError` on a missing
dependency. -/
theorem depsCompleted_error {V : Type} (nodes : List (String × WorkflowNode V)) :
    ∀ (deps : List String) (e : WorkflowError),
      depsCompleted nodes deps = .error e →
      ∃ d ∈ deps, lookupNode nodes d = none := by
  intro deps
  induction deps with
  | nil => intro e h; simp [depsCompleted] at h
  | cons d rest ih =>
    intro e h
    unfold depsCompleted at h
    cases hl : lookupNode nodes d with
    | none => exact ⟨d, List.mem_cons_self d rest, hl⟩
    | some dn =>
      rw [hl] at h
      dsimp only at h
      by_cases hs : dn.status = .completed
      · rw [if_pos hs] at h
        obtain ⟨d2, hd2, hl2⟩ := ih e h
        exact ⟨d2, List.mem_cons_of_mem d hd2, hl2⟩
      · rw [if_neg hs] at h; simp at h

/-- With every dependency registered, the scan returns `True` exactly when
every dependency is `completed`. -/
theorem depsCompleted_true_iff {V : Type}
    (nodes : List (String × WorkflowNode V)) :
    ∀ (deps : List String),
      (∀ d ∈ deps, (lookupNode nodes d).isSome) →
      (depsCompleted nodes deps = .ok true ↔
        ∀ d ∈ deps, ∃ q, lookupNode nodes d = some q ∧
          q.status = .completed) := by
  intro deps
  induction deps with
  | nil => intro _; simp [depsCompleted]
  | cons d rest ih =>
    intro hpres
    obtain ⟨dn, hdn⟩ :=
      Option.isSome_iff_exists.mp (hpres d (List.mem_cons_self d rest))
    have ihr := ih (fun d2 hd2 => hpres d2 (List.mem_cons_of_mem d hd2))
    unfold depsCompleted
    rw [hdn]
    dsimp only
    by_cases hs : dn.status = .completed
    · rw [if_pos hs]
      constructor
      · intro h d2 hd2
        rcases List.mem_cons.mp hd2 with rfl | htail
        · exact ⟨dn, hdn, hs⟩
        · exact (ihr.mp h) d2 htail
      · intro h
        exact ihr.mpr (fun d2 hd2 => h d2 (List.mem_cons_of_mem d hd2))
    · rw [if_neg hs]
      constructor
      · intro h; simp at h
      · intro h
        obtain ⟨q, hq, hqs⟩ := h d (List.mem_cons_self d rest)
        rw [hdn] at hq
        cases hq
        exact (hs hqs).elim

/-- The strict dependency check of `execute_node` raises
`DependencyNotSatisfiedError` at the first registered-but-not-completed
dependency, given all dependencies registered and at least one not
completed. -/
theorem checkDeps_first_incomplete {V : Type}
    (nodes : List (String × WorkflowNode V)) :
    ∀ (deps : List String),
      (∀ d ∈ deps, (lookupNode nodes d).isSome) →
      (∃ d ∈ deps, ∃ q, lookupNode nodes d = some q ∧
        q.status ≠ .completed) →
      ∃ d0 q0, d0 ∈ deps ∧ lookupNode nodes d0 = some q0 ∧
        q0.status ≠ .completed ∧
        checkDeps nodes deps = .error (.dependencyNotCompleted d0) := by
  intro deps
  induction deps with
  | nil => intro _ h; simp at h
  | cons d rest ih =>
    intro hpres hbad
    obtain ⟨dn, hdn⟩ :=
      Option.isSome_iff_exists.mp (hpres d (List.mem_cons_self d rest))
    unfold checkDeps
    rw [hdn]
    dsimp only
    by_cases hs : dn.status = .completed
    · rw [if_pos hs]
      have hbad2 : ∃ d2 ∈ rest, ∃ q, lookupNode nodes d2 = some q ∧
          q.status ≠ .completed := by
        obtain ⟨d2, hd2, q, hq, hqs⟩ := hbad
        rcases List.mem_cons.mp hd2 with rfl | htail
        · rw [hdn] at hq
          cases hq
          exact (hqs hs).elim
        · exact ⟨d2, htail, q, hq, hqs⟩
      obtain ⟨d0, q0, hd0, hq0, hq0s, hch⟩ :=
        ih (fun d2 hd2 => hpres d2 (List.mem_cons_of_mem d hd2)) hbad2
      exact ⟨d0, q0, List.mem_cons_of_mem d hd0, hq0, hq0s, hch⟩
    · rw [if_neg hs]
      exact ⟨d, dn, List.mem_cons_self d rest, hdn, hs, rfl⟩

/-- The strict dependency check can only fail with a `KeyError` or a
`DependencyNotSatisfiedError`. -/
theorem checkDeps_error_shape {V : Type}
    (nodes : List (String × WorkflowNode V)) :
    ∀ (deps : List String) (e : WorkflowError),
      checkDeps nodes deps = .error e →
      ∃ d, e = .keyError d ∨ e = .dependencyNotCompleted d := by
  intro deps
  induction deps with
  | nil => intro e h; simp [checkDeps] at h
  | cons d rest ih =>
    intro e h
    unfold checkDeps at h
    cases hl : lookupNode nodes d with
    | none =>
      rw [hl] at h
      simp only [Except.error.injEq] at h
      exact ⟨d, Or.inl h.symm⟩
    | some dn =>
      rw [hl] at h
      dsimp only at h
      by_cases hs : dn.status = .completed
      · rw [if_pos hs] at h; exact ih e h
      · rw [if_neg hs] at h
        simp only [Except.error.injEq] at h
        exact ⟨d, Or.inr h.symm⟩

/-- The `dependency_results` comprehension can only fail with a `KeyError`. -/
theorem collectDepResults_error {V : Type}
    (nodes : List (String × WorkflowNode V)) :
    ∀ (deps : List String) (e : WorkflowError),
      collectDepResults nodes deps = .error e → ∃ d, e = .keyError d := by
  intro deps
  induction deps with
  | nil => intro e h; simp [collectDepResults] at h
  | cons d rest ih =>
    intro e h
    unfold collectDepResults at h
    cases hl : lookupNode nodes d with
    | none =>
      rw [hl] at h
      simp only [Except.error.injEq] at h
      exact ⟨d, h.symm⟩
    | some dn =>
      rw [hl] at h
      dsimp only at h
      cases hc : collectDepResults nodes rest with
      | error e2 =>
        rw [hc] at h
        simp only [Except.map, Except.error.injEq] at h
        exact h ▸ ih e2 hc
      | ok l => rw [hc] at h; simp [Except.map] at h

/-- With every dependency registered, the comprehension yields exactly the
mapping from each dependency to its stored result, in declaration order. -/
theorem collectDepResults_ok {V : Type}
    (nodes : List (String × WorkflowNode V)) :
    ∀ (deps : List String),
      (∀ d ∈ deps, (lookupNode nodes d).isSome) →
      collectDepResults nodes deps =
        .ok (deps.map (fun d =>
          (d, Option.bind (lookupNode nodes d) WorkflowNode.result))) := by
  intro deps
  induction deps with
  | nil => intro _; rfl
  | cons d rest ih =>
    intro hpres
    obtain ⟨dn, hdn⟩ :=
      Option.isSome_iff_exists.mp (hpres d (List.mem_cons_self d rest))
    unfold collectDepResults
    rw [hdn]
    dsimp only
    rw [ih (fun d2 hd2 => hpres d2 (List.mem_cons_of_mem d hd2))]
    simp [Except.map, hdn]

/-! ### Single-node execution lemmas -/

/-- `execute_node` never changes the entry of any other node. -/
theorem execute_node_lookup_ne {V : Type} {g : WorkflowDAG V} {clock : Nat}
    {name : String} {input : Option (NodeInput V)} {g1 : WorkflowDAG V}
    {clock1 : Nat} {res : Except WorkflowError (PyVal V)}
    (h : g.execute_node clock name input = (g1, clock1, res)) :
    ∀ m, m ≠ name → lookupNode g1.nodes m = lookupNode g.nodes m := by
  intro m hm
  unfold WorkflowDAG.execute_node at h
  cases hl : lookupNode g.nodes name with
  | none => rw [hl] at h; cases h; rfl
  | some node =>
    rw [hl] at h
    dsimp only at h
    cases hc : checkDeps g.nodes node.dependencies with
    | error e => rw [hc] at h; cases h; rfl
    | ok u =>
      rw [hc] at h
      dsimp only at h
      cases he : node.execute clock input with
      | mk node1 rest1 =>
        obtain ⟨clock2, res2⟩ := rest1
        rw [he] at h
        cases res2 with
        | ok r =>
          cases h
          exact lookupNode_update_ne g.nodes name m node1 hm
        | error e =>
          cases h
          exact lookupNode_update_ne g.nodes name m node1 hm

/-- Anatomy of a task failure inside `execute_node`: the callable failed, the
node is stored back `failed` with the error text recorded and fresh
timestamps. -/
theorem execute_node_taskFailed {V : Type} {g : WorkflowDAG V} {clock : Nat}
    {name : String} {input : Option (NodeInput V)} {g1 : WorkflowDAG V}
    {clock1 : Nat} {msg : String}
    (h : g.execute_node clock name input = (g1, clock1, .error (.taskFailed msg))) :
    ∃ node, lookupNode g.nodes name = some node ∧
      node.task_func input = .error msg ∧
      g1.nodes = updateNode g.nodes name
        { node with
            status := .failed, error := some msg,
            start_time := some clock, end_time := some (clock + 1) } ∧
      clock1 = clock + 2 := by
  unfold WorkflowDAG.execute_node at h
  cases hl : lookupNode g.nodes name with
  | none => rw [hl] at h; simp at h
  | some node =>
    rw [hl] at h
    dsimp only at h
    cases hc : checkDeps g.nodes node.dependencies with
    | error e =>
      rw [hc] at h
      simp only [Prod.mk.injEq] at h
      obtain ⟨d, hd | hd⟩ := checkDeps_error_shape g.nodes node.dependencies e hc
      · rw [hd] at h; simp at h
      · rw [hd] at h; simp at h
    | ok u =>
      rw [hc] at h
      dsimp only at h
      unfold WorkflowNode.execute at h
      dsimp only at h
      cases ht : node.task_func input with
      | ok r =>
        rw [ht] at h
        simp at h
      | error e =>
        rw [ht] at h
        simp only [Prod.mk.injEq, Except.error.injEq,
          WorkflowError.taskFailed.injEq] at h
        obtain ⟨hg1, hclock, hmsg⟩ := h
        subst hmsg
        refine ⟨node, rfl, ht, ?_, hclock.symm⟩
        rw [← hg1]

/-- Behaviour of the readiness filter: with every dependency registered it
never raises, it scans in insertion order, and it keeps precisely the pending
entries whose dependencies are all completed. -/
theorem readyFilter_spec {V : Type} (nodes : List (String × WorkflowNode V))
    (hpres : ∀ p ∈ nodes, ∀ d ∈ p.2.dependencies,
      (lookupNode nodes d).isSome) :
    ∀ rest, (∀ p ∈ rest, p ∈ nodes) →
      ∃ l, readyFilter nodes rest = .ok l ∧
        l.Sublist (rest.map Prod.fst) ∧
        (∀ m, m ∈ l ↔ ∃ md, (m, md) ∈ rest ∧ md.status = .pending ∧
          ∀ d ∈ md.dependencies, ∃ q, lookupNode nodes d = some q ∧
            q.status = .completed) := by
  intro rest
  induction rest with
  | nil => intro _; exact ⟨[], rfl, by simp, by simp⟩
  | cons p rest2 ih =>
    intro hsub
    obtain ⟨l2, hl2, hsl2, hiff2⟩ :=
      ih (fun q hq => hsub q (List.mem_cons_of_mem p hq))
    obtain ⟨n, nd⟩ := p
    have hdep : ∀ d ∈ nd.dependencies, (lookupNode nodes d).isSome := by
      have := hpres (n, nd) (hsub _ (List.mem_cons_self _ _))
      simpa using this
    unfold readyFilter
    by_cases hp : nd.status = .pending
    · rw [if_pos hp]
      cases hdc : depsCompleted nodes nd.dependencies with
      | error e =>
        obtain ⟨d, hd, hnone⟩ := depsCompleted_error nodes _ e hdc
        have := hdep d hd
        rw [hnone] at this
        simp at this
      | ok b =>
        cases b with
        | true =>
          refine ⟨n :: l2, by rw [hl2]; rfl, ?_, ?_⟩
          · simpa using List.Sublist.cons₂ n hsl2
          · intro m
            constructor
            · intro hm
              rcases List.mem_cons.mp hm with rfl | hm2
              · exact ⟨nd, List.mem_cons_self _ _, hp,
                  (depsCompleted_true_iff nodes _ hdep).mp hdc⟩
              · obtain ⟨md, hmd, hmp, hmc⟩ := (hiff2 m).mp hm2
                exact ⟨md, List.mem_cons_of_mem _ hmd, hmp, hmc⟩
            · rintro ⟨md, hmd, hmp, hmc⟩
              rcases List.mem_cons.mp hmd with heq | hm2
              · cases heq
                exact List.mem_cons_self _ _
              · exact List.mem_cons_of_mem _
                  ((hiff2 m).mpr ⟨md, hm2, hmp, hmc⟩)
        | false =>
          refine ⟨l2, hl2, hsl2.cons n, ?_⟩
          intro m
          constructor
          · intro hm
            obtain ⟨md, hmd, hmp, hmc⟩ := (hiff2 m).mp hm
            exact ⟨md, List.mem_cons_of_mem _ hmd, hmp, hmc⟩
          · rintro ⟨md, hmd, hmp, hmc⟩
            rcases List.mem_cons.mp hmd with heq | hm2
            · cases heq
              have := (depsCompleted_true_iff nodes _ hdep).mpr hmc
              rw [hdc] at this
              simp at this
            · exact (hiff2 m).mpr ⟨md, hm2, hmp, hmc⟩
    · rw [if_neg hp]
      refine ⟨l2, hl2, hsl2.cons n, ?_⟩
      intro m
      constructor
      · intro hm
        obtain ⟨md, hmd, hmp, hmc⟩ := (hiff2 m).mp hm
        exact ⟨md, List.mem_cons_of_mem _ hmd, hmp, hmc⟩
      · rintro ⟨md, hmd, hmp, hmc⟩
        rcases List.mem_cons.mp hmd with heq | hm2
        · cases heq
          exact (hp hmp).elim
        · exact (hiff2 m).mpr ⟨md, hm2, hmp, hmc⟩

/-! ### Dictionary-merge lemmas -/

/-- In-place replacement of a present key is seen by its lookup. -/
theorem lookupD_replace {V : Type} (k : String) (v : V) :
    ∀ (d : Dict V), d.any (fun p => p.1 == k) →
      lookupD (d.map (fun p => if p.1 == k then (k, v) else p)) k = some v := by
  intro d
  induction d with
  | nil => intro h; simp at h
  | cons p rest ih =>
    intro h
    simp only [List.map_cons]
    by_cases hp : p.1 = k
    · simp [lookupD, hp]
    · have hbe : (p.1 == k) = false := beq_eq_false_iff_ne.mpr hp
      have hany : rest.any (fun p => p.1 == k) := by
        simpa [List.any_cons, hbe] using h
      unfold lookupD
      rw [hbe]
      simp only [Bool.false_eq_true, if_false]
      rw [List.find?_cons_of_neg _ (by simp [hbe])]
      exact ih hany

/-- Replacement at one key leaves other keys' lookups unchanged. -/
theorem lookupD_replace_ne {V : Type} (k m : String) (v : V) (hne : m ≠ k) :
    ∀ d : Dict V,
      lookupD (d.map (fun p => if p.1 == k then (k, v) else p)) m =
        lookupD d m := by
  intro d
  induction d with
  | nil => rfl
  | cons p rest ih =>
    simp only [List.map_cons]
    by_cases hp : p.1 = k
    · have hbe : (p.1 == k) = true := beq_iff_eq.mpr hp
      rw [hbe]
      simp only [if_true]
      unfold lookupD
      rw [List.find?_cons_of_neg _ (by simpa using fun h : k = m => hne h.symm),
          List.find?_cons_of_neg _
            (by simpa using fun h : p.1 = m => hne (h.symm.trans hp))]
      exact ih
    · have hbe : (p.1 == k) = false := beq_eq_false_iff_ne.mpr hp
      rw [hbe]
      simp only [Bool.false_eq_true, if_false]
      by_cases hm : p.1 = m
      · unfold lookupD
        rw [List.find?_cons_of_pos _ (by simpa using hm),
            List.find?_cons_of_pos _ (by simpa using hm)]
      · unfold lookupD
        rw [List.find?_cons_of_neg _ (by simpa using hm),
            List.find?_cons_of_neg _ (by simpa using hm)]
        exact ih

/-- Keys absent from a prefix are looked up in the suffix. -/
theorem lookupD_append_of_not_mem {V : Type} (k : String) :
    ∀ (d tail : Dict V), ¬ d.any (fun p => p.1 == k) →
      lookupD (d ++ tail) k = lookupD tail k := by
  intro d
  induction d with
  | nil => intro tail _; rfl
  | cons p rest ih =>
    intro tail h
    have hbe : (p.1 == k) = false := by
      cases hb : (p.1 == k) with
      | false => rfl
      | true => exact absurd (by simp [List.any_cons, hb]) h
    have hrest : ¬ rest.any (fun p => p.1 == k) := by
      intro hr
      exact h (by simp [List.any_cons, hr])
    unfold lookupD
    rw [List.cons_append, List.find?_cons_of_neg _ (by simp [hbe])]
    exact ih tail hrest

/-- Python's single-key assignment: the assigned key reads back the new
value. -/
theorem lookupD_dictSet_self {V : Type} (d : Dict V) (k : String) (v : V) :
    lookupD (dictSet d k v) k = some v := by
  unfold dictSet
  by_cases h : d.any (fun p => p.1 == k)
  · rw [if_pos h]
    exact lookupD_replace k v d h
  · rw [if_neg h]
    rw [lookupD_append_of_not_mem k d [(k, v)] h]
    simp [lookupD]

/-- Python's single-key assignment: other keys are unaffected. -/
theorem lookupD_dictSet_ne {V : Type} (d : Dict V) (k m : String) (v : V)
    (hne : m ≠ k) : lookupD (dictSet d k v) m = lookupD d m := by
  unfold dictSet
  by_cases h : d.any (fun p => p.1 == k)
  · rw [if_pos h]
    exact lookupD_replace_ne k m v hne d
  · rw [if_neg h]
    induction d with
    | nil =>
      unfold lookupD
      rw [List.nil_append,
        List.find?_cons_of_neg _ (by simpa using fun h2 : k = m => hne h2.symm)]
    | cons p rest ih =>
      have hrest : ¬ rest.any (fun p => p.1 == k) := by
        intro hr
        exact h (by simp [List.any_cons, hr])
      by_cases hm : p.1 = m
      · unfold lookupD
        rw [List.cons_append, List.find?_cons_of_pos _ (by simpa using hm),
            List.find?_cons_of_pos _ (by simpa using hm)]
      · unfold lookupD
        rw [List.cons_append, List.find?_cons_of_neg _ (by simpa using hm),
            List.find?_cons_of_neg _ (by simpa using hm)]
        exact ih hrest

/-- Merging a payload leaves keys outside the payload untouched. -/
theorem lookupD_dictUpdate_not_mem {V : Type} :
    ∀ (upd d : Dict V) (k : String), k ∉ upd.map Prod.fst →
      lookupD (dictUpdate d upd) k = lookupD d k := by
  intro upd
  induction upd with
  | nil => intro d k _; rfl
  | cons p rest ih =>
    intro d k hk
    simp only [List.map_cons, List.mem_cons] at hk
    push_neg at hk
    show lookupD (dictUpdate (dictSet d p.1 p.2) rest) k = lookupD d k
    rw [ih _ k hk.2, lookupD_dictSet_ne _ _ _ _ hk.1]

/-- Merging a duplicate-free payload makes each of its keys read back the
payload's value: the later write wins over whatever the context held. -/
theorem lookupD_dictUpdate_mem {V : Type} :
    ∀ (upd d : Dict V) (k : String) (v : V),
      (upd.map Prod.fst).Nodup → (k, v) ∈ upd →
      lookupD (dictUpdate d upd) k = some v := by
  intro upd
  induction upd with
  | nil => intro d k v _ hm; simp at hm
  | cons p rest ih =>
    intro d k v hnd hm
    simp only [List.map_cons, List.nodup_cons] at hnd
    rcases List.mem_cons.mp hm with rfl | htail
    · show lookupD (dictUpdate (dictSet d k v) rest) k = some v
      have hk : k ∉ rest.map Prod.fst := hnd.1
      rw [lookupD_dictUpdate_not_mem rest _ k hk]
      exact lookupD_dictSet_self d k v
    · show lookupD (dictUpdate (dictSet d p.1 p.2) rest) k = some v
      exact ih _ k v hnd.2 htail

/-! ### Workflow-walk lemmas -/

/-- A successful walk appends exactly the walked order to the result keys:
`execute_workflow` visits the nodes in the computed order. -/
theorem runOrder_ok_map_fst {V : Type} :
    ∀ (order : List String) (g : WorkflowDAG V) (clock : Nat)
      (results : List (String × PyVal V)) (data : Dict V)
      (g2 : WorkflowDAG V) (clock2 : Nat) (out : List (String × PyVal V)),
      runOrder order g clock results data = (g2, clock2, .ok out) →
      out.map Prod.fst = results.map Prod.fst ++ order := by
  intro order
  induction order with
  | nil =>
    intro g c res data g2 c2 out h
    unfold runOrder at h
    simp only [Prod.mk.injEq, Except.ok.injEq] at h
    rw [← h.2.2]
    simp
  | cons n rest ih =>
    intro g c res data g2 c2 out h
    unfold runOrder at h
    cases hl : lookupNode g.nodes n with
    | none => rw [hl] at h; simp at h
    | some node =>
      rw [hl] at h
      dsimp only at h
      cases hc : collectDepResults g.nodes node.dependencies with
      | error e => rw [hc] at h; simp at h
      | ok dep_results =>
        rw [hc] at h
        dsimp only at h
        cases hx : g.execute_node c n
            (some ⟨data, dep_results⟩) with
        | mk g1 rest1 =>
          obtain ⟨c1, res1⟩ := rest1
          rw [hx] at h
          cases res1 with
          | error e => simp at h
          | ok r =>
            dsimp only at h
            have := ih _ _ _ _ _ _ _ h
            rw [this]
            simp

/-- Anatomy of a run aborted by a task failure: the order splits around a
failing node which is stored back `failed` with the error text, and every node
after it in the order keeps exactly its pre-run entry. -/
theorem runOrder_taskFailed_split {V : Type} :
    ∀ (order : List String) (g : WorkflowDAG V) (clock : Nat)
      (results : List (String × PyVal V)) (data : Dict V)
      (g2 : WorkflowDAG V) (clock2 : Nat) (msg : String),
      order.Nodup →
      runOrder order g clock results data = (g2, clock2, .error (.taskFailed msg)) →
      ∃ pre f post, order = pre ++ f :: post ∧
        (∃ nd, lookupNode g2.nodes f = some nd ∧ nd.status = .failed ∧
          nd.error = some msg) ∧
        (∀ m, m ∈ post → lookupNode g2.nodes m = lookupNode g.nodes m) := by
  intro order
  induction order with
  | nil =>
    intro g c res data g2 c2 msg _ h
    unfold runOrder at h
    simp at h
  | cons n rest ih =>
    intro g c res data g2 c2 msg hnd h
    have hndr : rest.Nodup := (List.nodup_cons.mp hnd).2
    have hnmem : n ∉ rest := (List.nodup_cons.mp hnd).1
    unfold runOrder at h
    cases hl : lookupNode g.nodes n with
    | none => rw [hl] at h; simp at h
    | some node =>
      rw [hl] at h
      dsimp only at h
      cases hc : collectDepResults g.nodes node.dependencies with
      | error e =>
        rw [hc] at h
        simp only [Prod.mk.injEq, Except.error.injEq] at h
        obtain ⟨d, hd⟩ := collectDepResults_error g.nodes _ e hc
        rw [hd] at h
        simp at h
      | ok dep_results =>
        rw [hc] at h
        dsimp only at h
        cases hx : g.execute_node c n
            (some ⟨data, dep_results⟩) with
        | mk g1 rest1 =>
          obtain ⟨c1, res1⟩ := rest1
          rw [hx] at h
          cases res1 with
          | error e =>
            dsimp only at h
            simp only [Prod.mk.injEq, Except.error.injEq] at h
            obtain ⟨hg, hcl, he⟩ := h
            subst hg
            subst he
            obtain ⟨node0, hl0, hterr, hupd, hcl1⟩ :=
              execute_node_taskFailed hx
            refine ⟨[], n, rest, by simp, ?_, ?_⟩
            · refine ⟨{ node0 with
                  status := .failed, error := some msg,
                  start_time := some c, end_time := some (c + 1) },
                ?_, rfl, rfl⟩
              rw [hupd]
              exact lookupNode_update_self g.nodes n _ node0 hl0
            · intro m hm
              exact execute_node_lookup_ne hx m (fun hmn => hnmem (hmn ▸ hm))
          | ok r =>
            dsimp only at h
            obtain ⟨pre, f, post, hsplit, hfail, hpost⟩ :=
              ih _ _ _ _ _ _ _ hndr h
            refine ⟨n :: pre, f, post, by rw [hsplit]; rfl, hfail, ?_⟩
            intro m hm
            have hmr : m ∈ rest := by
              rw [hsplit]
              exact List.mem_append_right pre
                (List.mem_cons_of_mem f hm)
            rw [hpost m hm]
            exact execute_node_lookup_ne hx m (fun hmn => hnmem (hmn ▸ hmr))

/-- One successful step of the walk: the node is invoked with the shared
context paired with its dependencies' stored results, and its dictionary
result is merged into the context for the remaining walk. -/
theorem runOrder_step {V : Type} (g : WorkflowDAG V) (clock : Nat)
    (n : String) (rest : List String) (results : List (String × PyVal V))
    (data : Dict V) (node : WorkflowNode V)
    (dep_results : List (String × Option (PyVal V)))
    (g1 : WorkflowDAG V) (clock1 : Nat) (rd : Dict V)
    (hl : lookupNode g.nodes n = some node)
    (hc : collectDepResults g.nodes node.dependencies = .ok dep_results)
    (hx : g.execute_node clock n (some ⟨data, dep_results⟩) =
      (g1, clock1, .ok (.dict rd))) :
    runOrder (n :: rest) g clock results data =
      runOrder rest g1 clock1 (results ++ [(n, .dict rd)])
        (dictUpdate data rd) := by
  conv_lhs => unfold runOrder
  rw [hl]
  dsimp only
  rw [hc]
  dsimp only
  rw [hx]

/-! ### Claim theorems -/

/-- C1: the claimed invariant — every graph built only through a sequence of
`add_node` calls (each succeeding or raising) has an acyclic edge set — fails
on the code.  On an empty workflow, `add_node("E", deps=["E", "X"])` raises
the unknown-dependency error for `X` mid-loop without rolling back, leaving
node `E` and the self-loop edge `E → E` behind: a non-empty sequence of
dependency edges returns to its origin, and the graph fails the code's own
acyclicity check. -/
theorem c1_add_node_leaves_cycle :
    exSelfLoop.2 = .error (.unknownDependency "X") ∧
    exSelfLoop.1.graph.edges = [("E", "E")] ∧
    Reaches exSelfLoop.1.graph "E" "E" ∧
    is_directed_acyclic_graph exSelfLoop.1.graph = false := by
  refine ⟨rfl, by decide, Reaches.single (by decide), by decide⟩

/-- C10: `get_workflow_status` reports the verdict `failed` iff at least one
node is `failed`, `completed` iff every node is `completed`, and otherwise
`running` when some node is `running` and `pending` when none is; it is a pure
projection of the graph state. -/
theorem c10_workflow_status_verdict {V : Type} (g : WorkflowDAG V) :
    (g.get_workflow_status.status = .failed ↔
      ∃ p ∈ g.nodes, p.2.status = .failed) ∧
    (g.get_workflow_status.status = .completed ↔
      ∀ p ∈ g.nodes, p.2.status = .completed) ∧
    (g.get_workflow_status.status = .running ↔
      ((∀ p ∈ g.nodes, p.2.status ≠ .failed) ∧
       ¬ (∀ p ∈ g.nodes, p.2.status = .completed) ∧
       ∃ p ∈ g.nodes, p.2.status = .running)) ∧
    (g.get_workflow_status.status = .pending ↔
      ((∀ p ∈ g.nodes, p.2.status ≠ .failed) ∧
       ¬ (∀ p ∈ g.nodes, p.2.status = .completed) ∧
       ∀ p ∈ g.nodes, p.2.status ≠ .running)) := by
  have hAC : (g.nodes.countP (fun p => p.2.status == .completed) =
      g.nodes.length) ↔ ∀ p ∈ g.nodes, p.2.status = .completed := by
    rw [List.countP_eq_length]; simp
  have hEF : (0 < g.nodes.countP (fun p => p.2.status == .failed)) ↔
      ∃ p ∈ g.nodes, p.2.status = .failed := by
    rw [List.countP_pos_iff]; simp
  have hER : (0 < g.nodes.countP (fun p => p.2.status == .running)) ↔
      ∃ p ∈ g.nodes, p.2.status = .running := by
    rw [List.countP_pos_iff]; simp
  unfold WorkflowDAG.get_workflow_status
  dsimp only
  split_ifs with h1 h2 h3
  · have hac := hAC.mp h1
    have hnEF : ¬ ∃ p ∈ g.nodes, p.2.status = .failed := by
      rintro ⟨p, hp, hf⟩
      rw [hac p hp] at hf
      exact absurd hf (by decide)
    exact ⟨iff_of_false (by decide) hnEF, iff_of_true rfl hac,
      iff_of_false (by decide) (fun h => h.2.1 hac),
      iff_of_false (by decide) (fun h => h.2.1 hac)⟩
  · refine ⟨iff_of_true rfl (hEF.mp h2),
      iff_of_false (by decide) (fun hac => h1 (hAC.mpr hac)), ?_, ?_⟩
    · refine iff_of_false (by decide) (fun h => ?_)
      obtain ⟨p, hp, hf⟩ := hEF.mp h2
      exact h.1 p hp hf
    · refine iff_of_false (by decide) (fun h => ?_)
      obtain ⟨p, hp, hf⟩ := hEF.mp h2
      exact h.1 p hp hf
  · refine ⟨iff_of_false (by decide) (fun h => h2 (hEF.mpr h)),
      iff_of_false (by decide) (fun hac => h1 (hAC.mpr hac)),
      iff_of_true rfl ⟨fun p hp hf => h2 (hEF.mpr ⟨p, hp, hf⟩),
        fun hac => h1 (hAC.mpr hac), hER.mp h3⟩, ?_⟩
    refine iff_of_false (by decide) (fun h => ?_)
    obtain ⟨p, hp, hr⟩ := hER.mp h3
    exact h.2.2 p hp hr
  · exact ⟨iff_of_false (by decide) (fun h => h2 (hEF.mpr h)),
      iff_of_false (by decide) (fun hac => h1 (hAC.mpr hac)),
      iff_of_false (by decide) (fun h => h3 (hER.mpr h.2.2)),
      iff_of_true rfl ⟨fun p hp hf => h2 (hEF.mpr ⟨p, hp, hf⟩),
        fun hac => h1 (hAC.mpr hac),
        fun p hp hr => h3 (hER.mpr ⟨p, hp, hr⟩)⟩⟩

/-- C2: for the modelled ordering (Kahn's algorithm with insertion-order
tie-breaking, spec §4.4/§9, standing in for the external library's sort) on an
acyclic graph with duplicate-free nodes: (i) every node of the computed order
appears after all of its dependencies; (ii) the order is a pure function of
the graph, so identically constructed graphs yield identical orders; (iii)
with no dependency edges the order is exactly the insertion order (the
tie-breaking rule); and (iv) a successful `execute_workflow` run visits the
nodes — as recorded by its result keys — in exactly this order. -/
theorem c2_execute_workflow_order {V : Type} (g : WorkflowDAG V)
    (hdag : is_directed_acyclic_graph g.graph = true)
    (hnd : g.graph.nodes.Nodup) :
    (∀ pre b post, topological_sort g.graph = pre ++ b :: post →
      ∀ a, (a, b) ∈ g.graph.edges → a ∈ g.graph.nodes → a ∈ pre) ∧
    (∀ g2 : WorkflowDAG V, g2.graph = g.graph →
      topological_sort g2.graph = topological_sort g.graph) ∧
    (g.graph.edges = [] → topological_sort g.graph = g.graph.nodes) ∧
    (∀ (clock : Nat) (initial : Option (Dict V)) (g2 : WorkflowDAG V)
      (clock2 : Nat) (results : List (String × PyVal V)),
      g.execute_workflow clock initial = (g2, clock2, .ok results) →
      results.map Prod.fst = topological_sort g.graph) := by
  have hlen : (topological_sort g.graph).length = g.graph.nodes.length := by
    unfold is_directed_acyclic_graph at hdag
    exact of_decide_eq_true hdag
  refine ⟨?_, ?_, ?_, ?_⟩
  · intro pre b post heq a hab ha
    have hmem : a ∈ topological_sort g.graph :=
      kahnAux_covers hnd hlen a ha
    rw [heq] at hmem
    rcases List.mem_append.mp hmem with h1 | h2
    · exact h1
    · exact (kahnAux_no_in_suffix g.graph.edges g.graph.nodes.length
        g.graph.nodes pre post a b heq hab h2).elim
  · intro g2 h
    rw [h]
  · intro h
    unfold topological_sort
    rw [h]
    exact kahnAux_no_edges g.graph.nodes
  · intro clock initial g2 clock2 results h
    unfold WorkflowDAG.execute_workflow at h
    rw [if_pos hdag] at h
    have := runOrder_ok_map_fst (topological_sort g.graph) g clock []
      (initial.getD []) g2 clock2 results h
    simpa using this

/-- Witness for C2 at the diamond workflow of spec §8, scenario 1: the
computed order is `A, B, C, D` and every in-neighbour of `D` is listed before
it. -/
theorem c2_execute_workflow_order_witness :
    is_directed_acyclic_graph exDiamond.graph = true ∧
    exDiamond.graph.nodes.Nodup ∧
    topological_sort exDiamond.graph = ["A", "B", "C", "D"] ∧
    (∀ a, (a, "D") ∈ exDiamond.graph.edges → a ∈ exDiamond.graph.nodes →
      a ∈ ["A", "B", "C"]) := by
  refine ⟨by decide, by decide, by decide, ?_⟩
  exact (c2_execute_workflow_order exDiamond (by decide) (by decide)).1
    ["A", "B", "C"] "D" [] (by decide)

/-- C3: when a node's callable fails during `execute_workflow` on a fresh
(all-pending) workflow, the failure is surfaced to the caller, the failing
node ends `failed` with its error text recorded, every node after it in the
visitation order keeps exactly its pre-run (pending) entry — no further node
is executed — and in particular every node depending directly or transitively
on the failed node is still `pending`. -/
theorem c3_execute_workflow_fail_fast {V : Type} (g : WorkflowDAG V)
    (clock : Nat) (initial : Option (Dict V)) (g2 : WorkflowDAG V)
    (clock2 : Nat) (msg : String)
    (hnd : (g.nodes.map Prod.fst).Nodup)
    (hsync : g.graph.nodes = g.nodes.map Prod.fst)
    (hends : ∀ ed ∈ g.graph.edges, ed.1 ∈ g.graph.nodes ∧ ed.2 ∈ g.graph.nodes)
    (hpend : ∀ p ∈ g.nodes, p.2.status = .pending)
    (hrun : g.execute_workflow clock initial =
      (g2, clock2, .error (.taskFailed msg))) :
    ∃ pre f post, topological_sort g.graph = pre ++ f :: post ∧
      (∃ nd, lookupNode g2.nodes f = some nd ∧ nd.status = .failed ∧
        nd.error = some msg) ∧
      (∀ m, m ∈ post → lookupNode g2.nodes m = lookupNode g.nodes m) ∧
      (∀ m nd, m ∈ post → lookupNode g2.nodes m = some nd →
        nd.status = .pending) ∧
      (∀ b, Reaches g.graph f b → ∀ nb, lookupNode g2.nodes b = some nb →
        nb.status = .pending) := by
  have hgnd : g.graph.nodes.Nodup := by rw [hsync]; exact hnd
  unfold WorkflowDAG.execute_workflow at hrun
  by_cases hdag : is_directed_acyclic_graph g.graph = true
  case neg =>
    rw [if_neg hdag] at hrun
    simp at hrun
  case pos =>
  rw [if_pos hdag] at hrun
  have hlen : (topological_sort g.graph).length = g.graph.nodes.length := by
    unfold is_directed_acyclic_graph at hdag
    exact of_decide_eq_true hdag
  have hordnd : (topological_sort g.graph).Nodup :=
    kahnAux_nodup g.graph.edges g.graph.nodes.length g.graph.nodes hgnd
  obtain ⟨pre, f, post, hsplit, hfail, hpost⟩ :=
    runOrder_taskFailed_split (topological_sort g.graph) g clock []
      (initial.getD []) g2 clock2 msg hordnd hrun
  have hup : ∀ m nd, m ∈ post → lookupNode g2.nodes m = some nd →
      nd.status = .pending := by
    intro m nd hm hlm
    rw [hpost m hm] at hlm
    exact hpend (m, nd) (lookupNode_mem hlm)
  have hcov : ∀ e, e ∈ g.graph.edges →
      e.2 ∈ kahnAux g.graph.edges g.graph.nodes.length g.graph.nodes := by
    intro e he
    exact kahnAux_covers hgnd hlen e.2 (hends e he).2
  refine ⟨pre, f, post, hsplit, hfail, hpost, hup, ?_⟩
  intro b hr nb hlb
  exact hup b nb (kahnAux_reaches_in_suffix hcov hr pre post hsplit) hlb

/-- Witness for C3: the chain `A → B` where `B`'s callable raises `boom`. -/
theorem c3_execute_workflow_fail_fast_witness :
    (∀ p ∈ exChainFail.nodes, p.2.status = .pending) ∧
    (∃ pre f post, topological_sort exChainFail.graph = pre ++ f :: post ∧
      (∃ nd, lookupNode (exChainFail.execute_workflow 0 none).1.nodes f =
        some nd ∧ nd.status = .failed ∧ nd.error = some "boom") ∧
      (∀ m, m ∈ post →
        lookupNode (exChainFail.execute_workflow 0 none).1.nodes m =
          lookupNode exChainFail.nodes m) ∧
      (∀ m nd, m ∈ post →
        lookupNode (exChainFail.execute_workflow 0 none).1.nodes m = some nd →
        nd.status = .pending) ∧
      (∀ b, Reaches exChainFail.graph f b →
        ∀ nb, lookupNode (exChainFail.execute_workflow 0 none).1.nodes b =
          some nb → nb.status = .pending)) := by
  refine ⟨by decide, ?_⟩
  exact c3_execute_workflow_fail_fast exChainFail 0 none
    (exChainFail.execute_workflow 0 none).1
    (exChainFail.execute_workflow 0 none).2.1 "boom"
    (by decide) (by decide) (by decide) (by decide) rfl

/-- C4 counterexample: on an empty workflow, `add_node("B", deps=["A"])`
raises the structural unknown-dependency error, yet the node set has grown by
`B` — the graph is not left unmodified. -/
theorem c4_unknown_dependency_no_rollback :
    ((WorkflowDAG.init (V := Nat)).add_node "B" exTaskEmpty ["A"]).2 =
      .error (.unknownDependency "A") ∧
    ((WorkflowDAG.init (V := Nat)).add_node "B" exTaskEmpty ["A"]).1.nodes.map
      Prod.fst = ["B"] ∧
    (WorkflowDAG.init (V := Nat)).nodes.map Prod.fst = [] := by
  exact ⟨by decide, by decide, rfl⟩

/-- C4 (amended): an `add_node` call that raises `DuplicateNodeError` or
`CycleError` leaves the graph's node set and edge set exactly unchanged; a
call that raises `UnknownDependencyError` instead leaves the tentatively
inserted node (and the edges of the dependencies processed before the unknown
one) in the graph. -/
theorem c4_add_node_error_rollback {V : Type} (g : WorkflowDAG V)
    (name : String)
    (task_func : Option (NodeInput V) → Except String (PyVal V))
    (deps : List String) (g2 : WorkflowDAG V) (e : WorkflowError)
    (hsync : g.graph.nodes = g.nodes.map Prod.fst)
    (hends : ∀ ed ∈ g.graph.edges, ed.1 ∈ g.graph.nodes ∧ ed.2 ∈ g.graph.nodes)
    (h : g.add_node name task_func deps = (g2, .error e)) :
    (e = .duplicateNode name → g2 = g) ∧
    (e = .cycle → g2 = g) ∧
    (∀ d, e = .unknownDependency d →
      g2.nodes.map Prod.fst = g.nodes.map Prod.fst ++ [name]) := by
  unfold WorkflowDAG.add_node at h
  by_cases hdup : g.nodes.any (fun p => p.1 == name)
  · rw [if_pos hdup] at h
    simp only [Prod.mk.injEq, Except.error.injEq] at h
    obtain ⟨hg, he⟩ := h
    subst hg
    subst he
    refine ⟨fun _ => rfl, ?_, ?_⟩
    · intro hc; exact WorkflowError.noConfusion hc
    · intro d hd; exact WorkflowError.noConfusion hd
  · rw [if_neg hdup] at h
    dsimp only at h
    have hfresh : name ∉ g.nodes.map Prod.fst := by
      intro hmem
      obtain ⟨p, hp, hpn⟩ := List.mem_map.mp hmem
      exact hdup (List.any_eq_true.mpr ⟨p, hp, by simp [hpn]⟩)
    have hgfresh : name ∉ g.graph.nodes := by rw [hsync]; exact hfresh
    set node := WorkflowNode.init name task_func deps with hnode
    set g1 : WorkflowDAG V :=
      { graph := g.graph.add_node name,
        nodes := g.nodes ++ [(name, node)] } with hg1
    have hg1graph : g1.graph.nodes = g.graph.nodes ++ [name] := by
      show (g.graph.add_node name).nodes = g.graph.nodes ++ [name]
      rw [DiGraph.add_node_of_not_mem hgfresh]
    cases haD : addDeps g1 name deps with
    | mk g3 r =>
      rw [haD] at h
      have hg3nodes : g3.nodes = g.nodes ++ [(name, node)] := by
        have hh := addDeps_nodes deps g1 name
        rw [haD] at hh
        exact hh
      cases r with
      | error e2 =>
        dsimp only at h
        simp only [Prod.mk.injEq, Except.error.injEq] at h
        obtain ⟨hg, he⟩ := h
        subst hg
        subst he
        obtain ⟨d0, hd0⟩ := addDeps_error_unknown deps g1 g3 name e2 haD
        subst hd0
        refine ⟨?_, ?_, ?_⟩
        · intro hc; exact WorkflowError.noConfusion hc
        · intro hc; exact WorkflowError.noConfusion hc
        · intro d _
          rw [hg3nodes]
          simp
      | ok u =>
        dsimp only at h
        by_cases hdag : is_directed_acyclic_graph g3.graph = true
        · rw [if_pos hdag] at h
          simp at h
        · rw [if_neg hdag] at h
          simp only [Prod.mk.injEq, Except.error.injEq] at h
          obtain ⟨hg, he⟩ := h
          subst he
          have hkeys : ∀ k, (∃ p ∈ g1.nodes, p.1 = k) → k ∈ g1.graph.nodes := by
            intro k hk
            obtain ⟨p, hp, hpk⟩ := hk
            rw [hg1graph]
            have hp2 : p ∈ g.nodes ∨ p = (name, node) := by
              simpa [hg1] using hp
            rcases hp2 with h1 | h2
            · exact List.mem_append_left _ (by
                rw [hsync]
                exact List.mem_map.mpr ⟨p, h1, hpk⟩)
            · subst h2
              simp only [] at hpk
              simp [← hpk]
          have hname1 : name ∈ g1.graph.nodes := by
            rw [hg1graph]; simp
          obtain ⟨hg3g, new, hg3e, hnew⟩ := addDeps_spec deps g1 name hkeys hname1
          rw [haD] at hg3g hg3e
          refine ⟨?_, ?_, ?_⟩
          · intro hc; exact WorkflowError.noConfusion hc
          · intro _
            rw [← hg]
            refine rollback_restores g name node g3 hsync hends hfresh hg3nodes ?_ ?_
            · rw [hg3g, hg1graph]
            · refine ⟨new, ?_, hnew⟩
              rw [hg3e]
              show g1.graph.edges ++ new = g.graph.edges ++ new
              rw [show g1.graph.edges = g.graph.edges from
                DiGraph.add_node_edges g.graph name]
          · intro d hd; exact WorkflowError.noConfusion hd

/-- Witness for C4 (amended) at the duplicate case: re-adding `A` to the
diamond workflow raises and leaves the graph unchanged. -/
theorem c4_add_node_error_rollback_witness :
    (exDiamond.graph.nodes = exDiamond.nodes.map Prod.fst) ∧
    (exDiamond.add_node "A" exTaskEmpty []).1 = exDiamond := by
  refine ⟨by decide, ?_⟩
  exact (c4_add_node_error_rollback exDiamond "A" exTaskEmpty []
    (exDiamond.add_node "A" exTaskEmpty []).1 (.duplicateNode "A")
    (by decide) (by decide) rfl).1 rfl

/-- C5 counterexample: adding `E` with the dependency list `["E"]` to an empty
workflow does not raise the unknown-dependency error the claim predicts — the
node is registered before its dependencies are checked, so `E` is found — it
raises the cycle error; the node count is unchanged. -/
theorem c5_self_dependency_not_unknown :
    ((WorkflowDAG.init (V := Nat)).add_node "E" exTaskEmpty ["E"]).2 =
      .error .cycle ∧
    ((WorkflowDAG.init (V := Nat)).add_node "E" exTaskEmpty ["E"]).2 ≠
      .error (.unknownDependency "E") ∧
    ((WorkflowDAG.init (V := Nat)).add_node "E" exTaskEmpty ["E"]).1.nodes.length =
      (WorkflowDAG.init (V := Nat)).nodes.length := by
  exact ⟨by decide, by decide, by decide⟩

/-- C5 (amended): adding a fresh node whose dependency list contains its own
name — every other declared dependency being registered — fails with the
cycle error, not the unknown-dependency error: the node is registered before
its dependencies are examined, so the self-dependency is resolved to the node
itself, forms a self-loop, and is rejected by the acyclicity check, whose
rollback leaves the graph (and so the node count) unchanged. -/
theorem c5_add_node_self_dependency {V : Type} (g : WorkflowDAG V)
    (name : String)
    (task_func : Option (NodeInput V) → Except String (PyVal V))
    (deps : List String)
    (hsync : g.graph.nodes = g.nodes.map Prod.fst)
    (hnd : (g.nodes.map Prod.fst).Nodup)
    (hends : ∀ ed ∈ g.graph.edges, ed.1 ∈ g.graph.nodes ∧ ed.2 ∈ g.graph.nodes)
    (hfresh : name ∉ g.nodes.map Prod.fst)
    (hself : name ∈ deps)
    (hdeps : ∀ d ∈ deps, d = name ∨ d ∈ g.nodes.map Prod.fst) :
    g.add_node name task_func deps = (g, .error .cycle) := by
  unfold WorkflowDAG.add_node
  have hdup : ¬ (g.nodes.any (fun p => p.1 == name) = true) := by
    intro ha
    obtain ⟨p, hp, hpn⟩ := List.any_eq_true.mp ha
    exact hfresh (List.mem_map.mpr ⟨p, hp, by simpa using hpn⟩)
  rw [if_neg hdup]
  dsimp only
  set node := WorkflowNode.init name task_func deps with hnode
  set g1 : WorkflowDAG V :=
    { graph := g.graph.add_node name,
      nodes := g.nodes ++ [(name, node)] } with hg1
  have hgfresh : name ∉ g.graph.nodes := by rw [hsync]; exact hfresh
  have hg1graph : g1.graph.nodes = g.graph.nodes ++ [name] := by
    show (g.graph.add_node name).nodes = g.graph.nodes ++ [name]
    rw [DiGraph.add_node_of_not_mem hgfresh]
  have hknown : ∀ d ∈ deps, ∃ p ∈ g1.nodes, p.1 = d := by
    intro d hd
    rcases hdeps d hd with rfl | hmem
    · exact ⟨(d, node), by simp [hg1], rfl⟩
    · obtain ⟨p, hp, hpd⟩ := List.mem_map.mp hmem
      exact ⟨p, by simp [hg1, hp], hpd⟩
  obtain ⟨hok, hedge⟩ := addDeps_all_known deps g1 name hknown
  cases haD : addDeps g1 name deps with
  | mk g3 r =>
    rw [haD] at hok hedge
    dsimp only at hok hedge
    subst hok
    dsimp only
    have hkeys : ∀ k, (∃ p ∈ g1.nodes, p.1 = k) → k ∈ g1.graph.nodes := by
      intro k hk
      obtain ⟨p, hp, hpk⟩ := hk
      rw [hg1graph]
      have hp2 : p ∈ g.nodes ∨ p = (name, node) := by
        simpa [hg1] using hp
      rcases hp2 with h1 | h2
      · exact List.mem_append_left _ (by
          rw [hsync]
          exact List.mem_map.mpr ⟨p, h1, hpk⟩)
      · subst h2
        simp [← hpk]
    have hname1 : name ∈ g1.graph.nodes := by
      rw [hg1graph]; simp
    obtain ⟨hg3g, new, hg3e, hnew⟩ := addDeps_spec deps g1 name hkeys hname1
    rw [haD] at hg3g hg3e
    have hg3nodes : g3.nodes = g.nodes ++ [(name, node)] := by
      have hh := addDeps_nodes deps g1 name
      rw [haD] at hh
      exact hh
    have hloop : (name, name) ∈ g3.graph.edges := hedge name hself
    have hg3nd : g3.graph.nodes.Nodup := by
      rw [hg3g, hg1graph]
      refine List.Nodup.append ?_ (List.nodup_singleton name) ?_
      · rw [hsync]; exact hnd
      · intro a ha hb
        simp only [List.mem_singleton] at hb
        subst hb
        exact hgfresh ha
    have hnmem : name ∈ g3.graph.nodes := by
      rw [hg3g, hg1graph]; simp
    have hdagf : is_directed_acyclic_graph g3.graph = false :=
      selfloop_not_dag hg3nd hloop hnmem
    rw [hdagf]
    simp only [Bool.false_eq_true, if_false]
    have hroll := rollback_restores g name node g3 hsync hends hfresh hg3nodes
      (by rw [hg3g, hg1graph])
      ⟨new, by
        rw [hg3e]
        show g1.graph.edges ++ new = g.graph.edges ++ new
        rw [show g1.graph.edges = g.graph.edges from
          DiGraph.add_node_edges g.graph name], hnew⟩
    rw [hroll]

/-- Witness for C5 (amended): adding `E` depending on `A` and on itself to
the diamond workflow fails with the cycle error and leaves the graph
unchanged. -/
theorem c5_add_node_self_dependency_witness :
    ("E" ∉ exDiamond.nodes.map Prod.fst) ∧
    exDiamond.add_node "E" exTaskEmpty ["A", "E"] =
      (exDiamond, .error .cycle) := by
  refine ⟨by decide, ?_⟩
  exact c5_add_node_self_dependency exDiamond "E" exTaskEmpty ["A", "E"]
    (by decide) (by decide) (by decide) (by decide) (by decide) (by decide)

/-- C6 counterexample: calling `execute` on the `completed` node `exDoneNode`
does not fail with an `InvalidStateError` — no state check exists in the code
— it succeeds, re-running the callable and overwriting the stored result and
timestamps. -/
theorem c6_reexecute_completed_no_error :
    exDoneNode.status = .completed ∧
    (exDoneNode.execute 5 none).2.2 = .ok (.other 7) ∧
    (exDoneNode.execute 5 none).1.status = .completed ∧
    (exDoneNode.execute 5 none).1.start_time = some 5 ∧
    exDoneNode.start_time = some 0 ∧
    (exDoneNode.execute 5 none).1.result = some (.other 7) ∧
    exDoneNode.result = some (.dict [("a", 1)]) := by
  exact ⟨rfl, rfl, rfl, rfl, rfl, rfl, rfl⟩

/-- C6 (amended): `execute` performs no state check: called on a node in a
terminal state it simply re-executes — on success the node becomes
`completed` with the new result and fresh timestamps, on failure `failed`
with the new error text — instead of failing with an `InvalidStateError`. -/
theorem c6_execute_terminal_reexecutes {V : Type} (node : WorkflowNode V)
    (clock : Nat) (input : Option (NodeInput V))
    (_hterm : node.status = .completed ∨ node.status = .failed) :
    (∀ r, node.task_func input = .ok r →
      node.execute clock input =
        ({ node with
             status := .completed, result := some r,
             start_time := some clock, end_time := some (clock + 1) },
         clock + 2, .ok r)) ∧
    (∀ m, node.task_func input = .error m →
      node.execute clock input =
        ({ node with
             status := .failed, error := some m,
             start_time := some clock, end_time := some (clock + 1) },
         clock + 2, .error m)) := by
  constructor
  · intro r hr
    unfold WorkflowNode.execute
    dsimp only
    rw [hr]
  · intro m hm
    unfold WorkflowNode.execute
    dsimp only
    rw [hm]

/-- Witness for C6 (amended) at the completed fixture node. -/
theorem c6_execute_terminal_reexecutes_witness :
    (exDoneNode.status = .completed ∨ exDoneNode.status = .failed) ∧
    exDoneNode.execute 5 none =
      ({ exDoneNode with
           status := .completed, result := some (.other 7),
           start_time := some 5, end_time := some 6 }, 7, .ok (.other 7)) := by
  refine ⟨Or.inl rfl, ?_⟩
  exact (c6_execute_terminal_reexecutes exDoneNode 5 none (Or.inl rfl)).1
    (.other 7) rfl

/-- C7: with every declared dependency registered, `get_ready_nodes` returns,
in insertion order (a sublist of the registration order), exactly the
`pending` nodes all of whose dependencies are `completed` — in particular it
never returns a node having a `pending`, `running` or `failed` dependency. -/
theorem c7_get_ready_nodes {V : Type} (g : WorkflowDAG V)
    (hnd : (g.nodes.map Prod.fst).Nodup)
    (hpres : ∀ p ∈ g.nodes, ∀ d ∈ p.2.dependencies,
      (lookupNode g.nodes d).isSome) :
    ∃ l, g.get_ready_nodes = .ok l ∧
      l.Sublist (g.nodes.map Prod.fst) ∧
      (∀ m, m ∈ l ↔ ∃ md, lookupNode g.nodes m = some md ∧
        md.status = .pending ∧
        ∀ d ∈ md.dependencies, ∃ q, lookupNode g.nodes d = some q ∧
          q.status = .completed) := by
  obtain ⟨l, hl, hsl, hiff⟩ :=
    readyFilter_spec g.nodes hpres g.nodes (fun p hp => hp)
  refine ⟨l, hl, hsl, ?_⟩
  intro m
  rw [hiff m]
  constructor
  · rintro ⟨md, hmd, h1, h2⟩
    exact ⟨md, lookupNode_of_mem hnd hmd, h1, h2⟩
  · rintro ⟨md, hmd, h1, h2⟩
    exact ⟨md, lookupNode_mem hmd, h1, h2⟩

/-- Witness for C7 at the mid-run fixture (`A` completed; `B`, `C` pending):
the ready list is exactly `[B]`. -/
theorem c7_get_ready_nodes_witness :
    (exMixed.nodes.map Prod.fst).Nodup ∧
    exMixed.get_ready_nodes = .ok ["B"] ∧
    (∃ l, exMixed.get_ready_nodes = .ok l ∧
      l.Sublist (exMixed.nodes.map Prod.fst) ∧
      (∀ m, m ∈ l ↔ ∃ md, lookupNode exMixed.nodes m = some md ∧
        md.status = .pending ∧
        ∀ d ∈ md.dependencies, ∃ q, lookupNode exMixed.nodes d = some q ∧
          q.status = .completed)) := by
  refine ⟨by decide, by decide, ?_⟩
  exact c7_get_ready_nodes exMixed (by decide) (by decide)

/-- C8: an `execute_node` call on a node having a registered but
not-`completed` dependency fails with `DependencyNotSatisfiedError` before the
callable is invoked: the state and the clock are returned unchanged, so the
node keeps its `pending` status with no timestamps or result recorded. -/
theorem c8_execute_node_unsatisfied_dependency {V : Type} (g : WorkflowDAG V)
    (clock : Nat) (name : String) (input : Option (NodeInput V))
    (node : WorkflowNode V) (d : String) (q : WorkflowNode V)
    (hl : lookupNode g.nodes name = some node)
    (hpres : ∀ d2 ∈ node.dependencies, (lookupNode g.nodes d2).isSome)
    (hd : d ∈ node.dependencies)
    (hq : lookupNode g.nodes d = some q)
    (hqs : q.status ≠ .completed) :
    ∃ d0 q0, d0 ∈ node.dependencies ∧ lookupNode g.nodes d0 = some q0 ∧
      q0.status ≠ .completed ∧
      g.execute_node clock name input =
        (g, clock, .error (.dependencyNotCompleted d0)) := by
  obtain ⟨d0, q0, hd0, hq0, hq0s, hch⟩ :=
    checkDeps_first_incomplete g.nodes node.dependencies hpres
      ⟨d, hd, q, hq, hqs⟩
  refine ⟨d0, q0, hd0, hq0, hq0s, ?_⟩
  unfold WorkflowDAG.execute_node
  rw [hl]
  dsimp only
  rw [hch]

/-- Witness for C8: executing `C` (whose dependency `B` is pending) in the
mid-run fixture fails with the dependency error and leaves the state and the
clock untouched. -/
theorem c8_execute_node_unsatisfied_dependency_witness :
    exPendingB.status ≠ .completed ∧
    (∃ d0 q0, d0 ∈ exPendingC.dependencies ∧
      lookupNode exMixed.nodes d0 = some q0 ∧ q0.status ≠ .completed ∧
      exMixed.execute_node 10 "C" none =
        (exMixed, 10, .error (.dependencyNotCompleted d0))) := by
  refine ⟨by decide, ?_⟩
  exact c8_execute_node_unsatisfied_dependency exMixed 10 "C" none
    exPendingC "B" exPendingB rfl (by decide) (by decide) rfl (by decide)

/-- C9: during `execute_workflow`, (i) the dependency-results mapping handed
to a node pairs each of its dependency names with that dependency's stored
result; (ii) one successful step invokes the node with exactly the current
shared context plus that mapping and continues with the node's dictionary
payload merged into the context; and the merge is key-wise last-write-wins:
(iii) a key of the payload reads back the payload's value, replacing any
earlier value, while (iv) keys outside the payload are unchanged. -/
theorem c9_context_propagation {V : Type} :
    (∀ (g : WorkflowDAG V) (node : WorkflowNode V),
      (∀ d ∈ node.dependencies, (lookupNode g.nodes d).isSome) →
      collectDepResults g.nodes node.dependencies =
        .ok (node.dependencies.map (fun d =>
          (d, Option.bind (lookupNode g.nodes d) WorkflowNode.result)))) ∧
    (∀ (g : WorkflowDAG V) (clock : Nat) (n : String) (rest : List String)
      (results : List (String × PyVal V)) (data : Dict V)
      (node : WorkflowNode V)
      (dep_results : List (String × Option (PyVal V)))
      (g1 : WorkflowDAG V) (clock1 : Nat) (rd : Dict V),
      lookupNode g.nodes n = some node →
      collectDepResults g.nodes node.dependencies = .ok dep_results →
      g.execute_node clock n (some ⟨data, dep_results⟩) =
        (g1, clock1, .ok (.dict rd)) →
      runOrder (n :: rest) g clock results data =
        runOrder rest g1 clock1 (results ++ [(n, .dict rd)])
          (dictUpdate data rd)) ∧
    (∀ (data upd : Dict V) (k : String) (v : V),
      (upd.map Prod.fst).Nodup → (k, v) ∈ upd →
      lookupD (dictUpdate data upd) k = some v) ∧
    (∀ (data upd : Dict V) (k : String), k ∉ upd.map Prod.fst →
      lookupD (dictUpdate data upd) k = lookupD data k) := by
  refine ⟨?_, ?_, ?_, ?_⟩
  · intro g node h
    exact collectDepResults_ok g.nodes node.dependencies h
  · intro g clock n rest results data node dep_results g1 clock1 rd h1 h2 h3
    exact runOrder_step g clock n rest results data node dep_results
      g1 clock1 rd h1 h2 h3
  · intro data upd k v h1 h2
    exact lookupD_dictUpdate_mem upd data k v h1 h2
  · intro data upd k h
    exact lookupD_dictUpdate_not_mem upd data k h

/-- Witness for C9: merging the payload `{b: 9, c: 3}` into the context
`{a: 1, b: 2}` overwrites `b` with the later value and leaves `a` alone. -/
theorem c9_context_propagation_witness :
    (([("b", 9), ("c", 3)] : Dict Nat).map Prod.fst).Nodup ∧
    lookupD (dictUpdate [("a", 1), ("b", 2)] [("b", 9), ("c", 3)]) "b" =
      some 9 ∧
    lookupD (dictUpdate ([("a", 1), ("b", 2)] : Dict Nat)
      [("b", 9), ("c", 3)]) "a" = lookupD [("a", 1), ("b", 2)] "a" := by
  refine ⟨by decide, ?_, ?_⟩
  · exact (c9_context_propagation (V := Nat)).2.2.1 [("a", 1), ("b", 2)]
      [("b", 9), ("c", 3)] "b" 9 (by decide) (by decide)
  · exact (c9_context_propagation (V := Nat)).2.2.2 [("a", 1), ("b", 2)]
      [("b", 9), ("c", 3)] "a" (by decide)

end NflWorkflow
